import Mathlib


/-!
# fastfifo: a fixed-capacity byte FIFO over a ring buffer

A shallow embedding of `fastfifo.go` and `utils.go`, followed by the
properties proved about it.

Modelling conventions.

* A Go `int` is a Lean `Int`; every slice index is checked against the
  bounds Go checks, and an out-of-range index or slice expression ends the
  call with `Outcome.panic`.  A loop that never exits ends with
  `Outcome.hang`.
* A Go `uint` is a `Nat` taken modulo `2 ^ 64` wherever bits can be shifted
  out (`<<`), and a `byte` is a `Fin 256`.
* A `[]byte` whose capacity equals its length (the ring, the header scratch
  buffer, and every sub-slice of them) is the `List Byte` of its elements.
  The destination handed to `Pop` is a `Slice`, which also carries the
  elements between its length and its capacity.
* A function that writes through a slice returns the new contents of that
  slice; a write through a sub-slice `s[lo:]` is written back with `putBack`.
* The mutex is not modelled: calls are taken one after another.
-/

namespace fastfifo

abbrev Byte := Fin 256

/-- The ways a call can end: it returns a value, it panics, or it loops
forever. -/
inductive Outcome (α : Type) where
  | ok (a : α)
  | panic
  | hang
deriving DecidableEq

def Outcome.bind {α β : Type} : Outcome α → (α → Outcome β) → Outcome β
  | .ok a, k => k a
  | .panic, _ => .panic
  | .hang, _ => .hang

instance : Monad Outcome where
  pure := Outcome.ok
  bind := Outcome.bind

/-- The four error constants of the package. -/
inductive constError where
  | ErrNoMoreData
  | ErrNoSpaceLeft
  | ErrMessageTooLong
  | ErrBufferTooSmall
deriving DecidableEq

/-- A Go `error` value: `none` is `nil`. -/
abbrev error := Option constError

structure cycledRange where
  start : Int
  length : Int
deriving DecidableEq

structure FastFifo where
  buffer : List Byte
  headerBuffer : List Byte
  maxMessageSize : Int
  data : cycledRange
  freeSpace : cycledRange
deriving DecidableEq

/-- A caller-owned `[]byte`: `vis` holds the elements below `len`, `hidden`
the elements from `len` up to `cap`.  The nil slice is `⟨[], []⟩`. -/
structure Slice where
  vis : List Byte
  hidden : List Byte
deriving DecidableEq

/-- The Go builtin `len` of a destination slice. -/
def Slice.len (s : Slice) : Int := s.vis.length

/-- The Go builtin `cap` of a destination slice. -/
def Slice.cap (s : Slice) : Int := s.vis.length + s.hidden.length

/-- The backing elements of a destination slice from index 0 up to `cap`. -/
def Slice.backing (s : Slice) : List Byte := s.vis ++ s.hidden

/-- The conversion `byte(x)` of an unsigned integer. -/
def toByte (x : Nat) : Byte := ⟨x % 256, Nat.mod_lt _ (by decide)⟩

/-- The conversion `int(x)` of a 64-bit unsigned integer. -/
def uintToInt (x : Nat) : Int := if x % 2 ^ 64 < 2 ^ 63 then (x % 2 ^ 64 : Nat) else (x % 2 ^ 64 : Nat) - 2 ^ 64

/-- The builtin `make([]byte, n)`. -/
def makeBytes (n : Int) : Outcome (List Byte) :=
  if 0 ≤ n then .ok (List.replicate n.toNat 0) else .panic

/-- The slice expression `s[lo:hi]`, for `s` with `cap(s) == len(s)`. -/
def sliceRange (s : List Byte) (lo hi : Int) : Outcome (List Byte) :=
  if 0 ≤ lo ∧ lo ≤ hi ∧ hi ≤ s.length then .ok ((s.drop lo.toNat).take (hi - lo).toNat) else .panic

/-- The slice expression `s[lo:]`: the upper bound is `len(s)`. -/
def sliceFrom (s : List Byte) (lo : Int) : Outcome (List Byte) :=
  if 0 ≤ lo ∧ lo ≤ s.length then .ok (s.drop lo.toNat) else .panic

/-- The slice expression `s[:hi]`, for `s` with `cap(s) == len(s)`. -/
def sliceTo (s : List Byte) (hi : Int) : Outcome (List Byte) :=
  if 0 ≤ hi ∧ hi ≤ s.length then .ok (s.take hi.toNat) else .panic

/-- The contents of `s` after the sub-slice `s[lo:]` has become `view`. -/
def putBack (s : List Byte) (lo : Int) (view : List Byte) : List Byte :=
  s.take lo.toNat ++ view

/-- The assignment `s[i] = b`. -/
def setIndex (s : List Byte) (i : Nat) (b : Byte) : Outcome (List Byte) :=
  if i < s.length then .ok (s.set i b) else .panic

/-- The index expression `s[i]`. -/
def getIndex (s : List Byte) (i : Nat) : Outcome Byte :=
  match s.get? i with
  | some b => .ok b
  | none => .panic

/-- The builtin `copy(dst, src)`: the new contents of `dst` and the number of
elements copied, `min(len(dst), len(src))`. -/
def copy (dst src : List Byte) : List Byte × Int :=
  (src.take (min dst.length src.length) ++ dst.drop (min dst.length src.length),
    ((min dst.length src.length : Nat) : Int))

/-! ## utils.go -/

/-- The loop `for since > len(src) { since -= len(src) }`, `n = len(src)`.
The first argument counts the iterations still allowed; `readCrossBoundary`
starts it at `since`, which is enough whenever the loop exits at all. -/
def readCrossBoundary.loop (n : Int) : Nat → Int → Outcome Int
  | 0, since => if since > n then .hang else .ok since
  | fuel + 1, since => if since > n then readCrossBoundary.loop n fuel (since - n) else .ok since

def readCrossBoundary (src : List Byte) (since length : Int) (dst : List Byte) :
    Outcome (List Byte × Int) := do
  let since ← readCrossBoundary.loop src.length since.toNat since
  let untilBoundary := (src.length : Int) - since
  if untilBoundary < length then
    let a ← sliceRange src since (since + untilBoundary)
    let r1 := copy dst a
    let view ← sliceFrom r1.1 untilBoundary
    let b ← sliceRange src 0 (length - untilBoundary)
    let r2 := copy view b
    pure (putBack r1.1 untilBoundary r2.1, r1.2 + r2.2)
  else
    let a ← sliceRange src since (since + length)
    pure (copy dst a)

/-- The loop `for dstSince >= len(dst) { dstSince -= len(dst) }`,
`n = len(dst)`; the first argument counts the iterations still allowed. -/
def writeCrossBoundary.loop (n : Int) : Nat → Int → Outcome Int
  | 0, dstSince => if dstSince ≥ n then .hang else .ok dstSince
  | fuel + 1, dstSince =>
    if dstSince ≥ n then writeCrossBoundary.loop n fuel (dstSince - n) else .ok dstSince

def writeCrossBoundary (src dst : List Byte) (dstSince : Int) : Outcome (List Byte × Int) := do
  let dstSince ← writeCrossBoundary.loop dst.length dstSince.toNat dstSince
  let left := (dst.length : Int) - dstSince
  if left < src.length then
    let view ← sliceFrom dst dstSince
    let a ← sliceTo src left
    let r1 := copy view a
    let dst1 := putBack dst dstSince r1.1
    let view0 ← sliceFrom dst1 0
    let b ← sliceFrom src left
    let r2 := copy view0 b
    pure (putBack dst1 0 r2.1, r1.2 + r2.2)
  else
    let view ← sliceFrom dst dstSince
    let r := copy view src
    pure (putBack dst dstSince r.1, r.2)

/-! ## fastfifo.go -/

/-- The loop `for i := maxMessageSize; i > 0; i /= 256 { size++ }`.  The
division is only reached for `i > 0`, where Go's truncated division and
`Int`'s division agree.  The first argument counts the iterations still
allowed; `calcMsgHeaderSize` starts it at `maxMessageSize`. -/
def calcMsgHeaderSize.loop : Nat → Int → Int → Int
  | 0, _, size => size
  | fuel + 1, i, size => if i > 0 then calcMsgHeaderSize.loop fuel (i / 256) (size + 1) else size

def calcMsgHeaderSize (maxMessageSize : Int) : Int :=
  calcMsgHeaderSize.loop maxMessageSize.toNat maxMessageSize 0

def New (maxMessageSize capacity : Int) : Outcome FastFifo := do
  let headerBuffer ← makeBytes (calcMsgHeaderSize maxMessageSize)
  let buffer ← makeBytes capacity
  pure { headerBuffer := headerBuffer, maxMessageSize := maxMessageSize, buffer := buffer,
         data := { start := 0, length := 0 }, freeSpace := { start := 0, length := capacity } }

/-- The loop `for i := 1; i < len(f.headerBuffer); i++ { dst[i] = byte(size >> (i*8)) }`
with `todo` iterations left and the counter at `i`. -/
def putMsgLength.loop (size : Nat) : Nat → Nat → List Byte → Outcome (List Byte)
  | 0, _, dst => .ok dst
  | todo + 1, i, dst => do
    let dst ← setIndex dst i (toByte (size >>> (i * 8)))
    putMsgLength.loop size todo (i + 1) dst

def putMsgLength (f : FastFifo) (size : Nat) (dst : List Byte) : Outcome (List Byte) := do
  let dst ← setIndex dst 0 (toByte size)
  putMsgLength.loop size (f.headerBuffer.length - 1) 1 dst

/-- The loop `for i := 1; i < len(f.headerBuffer); i++ { size |= uint(f.headerBuffer[i]) << (i*8) }`
with `todo` iterations left and the counter at `i`. -/
def getMsgLength.loop (hb : List Byte) : Nat → Nat → Nat → Outcome Nat
  | 0, _, size => .ok size
  | todo + 1, i, size => do
    let b ← getIndex hb i
    getMsgLength.loop hb todo (i + 1) (size ||| ((b.val <<< (i * 8)) % 2 ^ 64))

def getMsgLength (f : FastFifo) : Outcome Nat := do
  let b ← getIndex f.headerBuffer 0
  getMsgLength.loop f.headerBuffer (f.headerBuffer.length - 1) 1 b.val

/-- The four statements that close both success paths of `Push`:
`f.data.length += totalLength`, `f.freeSpace.start += totalLength`, the
single wrap of `f.freeSpace.start`, `f.freeSpace.length -= totalLength`. -/
def pushAdvance (f : FastFifo) (totalLength : Int) : FastFifo :=
  { f with
    data := { f.data with length := f.data.length + totalLength },
    freeSpace :=
      { start :=
          if f.freeSpace.start + totalLength ≥ f.buffer.length
          then f.freeSpace.start + totalLength - f.buffer.length
          else f.freeSpace.start + totalLength,
        length := f.freeSpace.length - totalLength } }

def Push (f : FastFifo) (msg : List Byte) : Outcome (FastFifo × error) :=
  if (msg.length : Int) > f.maxMessageSize then
    pure (f, some .ErrMessageTooLong)
  else
    let totalLength : Int := (f.headerBuffer.length : Int) + msg.length
    if totalLength > f.freeSpace.length then
      pure (f, some .ErrNoSpaceLeft)
    else if (f.buffer.length : Int) - f.freeSpace.start ≥ totalLength then do
      let view ← sliceFrom f.buffer f.freeSpace.start
      let view ← putMsgLength f msg.length view
      let buf1 := putBack f.buffer f.freeSpace.start view
      let view ← sliceFrom buf1 (f.freeSpace.start + f.headerBuffer.length)
      let r := copy view msg
      let buf2 := putBack buf1 (f.freeSpace.start + f.headerBuffer.length) r.1
      pure (pushAdvance { f with buffer := buf2 } totalLength, none)
    else do
      let f1 ←
        if (f.buffer.length : Int) - f.freeSpace.start ≥ f.headerBuffer.length then do
          let view ← sliceFrom f.buffer f.freeSpace.start
          let view ← putMsgLength f msg.length view
          pure { f with buffer := putBack f.buffer f.freeSpace.start view }
        else do
          let hb ← putMsgLength f msg.length f.headerBuffer
          let w ← writeCrossBoundary hb f.buffer f.freeSpace.start
          pure { f with headerBuffer := hb, buffer := w.1 }
      let w ← writeCrossBoundary msg f1.buffer (f1.freeSpace.start + f1.headerBuffer.length)
      pure (pushAdvance { f1 with buffer := w.1 } totalLength, none)

/-- The four statements that close the success path of `Pop`. -/
def popAdvance (f : FastFifo) (totalLength : Int) : FastFifo :=
  { f with
    freeSpace := { f.freeSpace with length := f.freeSpace.length + totalLength },
    data :=
      { start :=
          if f.data.start + totalLength ≥ f.buffer.length
          then f.data.start + totalLength - f.buffer.length
          else f.data.start + totalLength,
        length := f.data.length - totalLength } }

/-- The method `Pop`: it returns the queue, the destination, the count and the
error. -/
def Pop (f : FastFifo) (dst : Slice) : Outcome (FastFifo × Slice × Int × error) :=
  if f.data.length = 0 then
    pure (f, dst, 0, some .ErrNoMoreData)
  else do
    let r ← readCrossBoundary f.buffer f.data.start f.headerBuffer.length f.headerBuffer
    let f1 := { f with headerBuffer := r.1 }
    let size ← getMsgLength f1
    let length := uintToInt size
    if dst.cap < length then
      pure (f1, dst, 0, some .ErrBufferTooSmall)
    else do
      let r ← readCrossBoundary f1.buffer (f1.data.start + f1.headerBuffer.length) length dst.vis
      let totalLength : Int := (f1.headerBuffer.length : Int) + length
      pure (popAdvance f1 totalLength, { dst with vis := r.1 }, length, none)

/-! ## Sequences of calls -/

/-- One call on the queue: `Push(msg)` or `Pop(dst)`. -/
inductive Call where
  | push (msg : List Byte)
  | pop (dst : Slice)
deriving DecidableEq

/-- What a caller sees of one call: the error of a `Push`; the count, the
error and the destination after a `Pop`. -/
inductive Result where
  | pushed (err : error)
  | popped (n : Int) (err : error) (dst : Slice)
deriving DecidableEq

/-- One call on the queue `f`. -/
def step (f : FastFifo) : Call → Outcome (FastFifo × Result)
  | .push msg => do
    let r ← Push f msg
    pure (r.1, .pushed r.2)
  | .pop dst => do
    let r ← Pop f dst
    pure (r.1, .popped r.2.2.1 r.2.2.2 r.2.1)

/-- The calls made one after another on the queue `f`, with their results in
order. -/
def run (f : FastFifo) : List Call → Outcome (FastFifo × List Result)
  | [] => pure (f, [])
  | c :: cs => do
    let r ← step f c
    let rs ← run r.1 cs
    pure (rs.1, r.2 :: rs.2)

/-- The largest value of a 64-bit Go `int`. -/
def maxInt : Int := 2 ^ 63 - 1

/-- The destination of a `Pop` call has length at least `n`; every `Push`
call passes. -/
def Call.roomy (n : Int) : Call → Bool
  | .push _ => true
  | .pop dst => decide (n ≤ dst.len)

/-! ## The record layout and the abstract FIFO -/

/-- The `H` bytes of `size` in little-endian order. -/
def leBytes (H size : Nat) : List Byte :=
  (List.range H).map (fun i => toByte (size >>> (i * 8)))

/-- The bytes of a queue of payloads laid out as records: each payload
preceded by its `H`-byte little-endian length. -/
def encodeQ (H : Nat) : List (List Byte) → List Byte
  | [] => []
  | m :: q => leBytes H m.length ++ m ++ encodeQ H q

/-- The abstract `Push` of the specification on a list of payloads, oldest
first: too long a payload is refused, then one whose record does not fit in
the bytes the queued records leave free; otherwise it is appended. -/
def specPush (maxMessageSize : Int) (H C : Nat) (q : List (List Byte)) (m : List Byte) :
    List (List Byte) × error :=
  if (m.length : Int) > maxMessageSize then (q, some .ErrMessageTooLong)
  else if H + m.length > C - (encodeQ H q).length then (q, some .ErrNoSpaceLeft)
  else (q ++ [m], none)

/-- The abstract `Pop` of the specification into a destination long enough
for the oldest payload: on an empty list it reports `ErrNoMoreData`;
otherwise it removes the oldest payload, returns its length and leaves its
bytes at the front of the destination. -/
def specPop (q : List (List Byte)) (dst : Slice) : List (List Byte) × Result :=
  match q with
  | [] => ([], .popped 0 (some .ErrNoMoreData) dst)
  | m :: q' => (q', .popped m.length none { dst with vis := m ++ dst.vis.drop m.length })

/-- One call on the abstract FIFO. -/
def specStep (maxMessageSize : Int) (H C : Nat) (q : List (List Byte)) :
    Call → List (List Byte) × Result
  | .push m => ((specPush maxMessageSize H C q m).1, .pushed (specPush maxMessageSize H C q m).2)
  | .pop dst => specPop q dst

/-- The calls made one after another on the abstract FIFO. -/
def specRun (maxMessageSize : Int) (H C : Nat) (q : List (List Byte)) :
    List Call → List (List Byte) × List Result
  | [] => (q, [])
  | c :: cs =>
    ((specRun maxMessageSize H C (specStep maxMessageSize H C q c).1 cs).1,
      (specStep maxMessageSize H C q c).2 ::
        (specRun maxMessageSize H C (specStep maxMessageSize H C q c).1 cs).2)

/-- The queue states reachable from `New(maxMessageSize, capacity)`, both
arguments positive Go integers, by `Push` and `Pop` calls that return, each
state with its pending payloads: the payloads of the successful pushes not
yet removed by a successful pop, oldest first. -/
inductive Reach (maxMessageSize capacity : Int) : FastFifo → List (List Byte) → Prop where
  | init (f : FastFifo) (hm : 0 < maxMessageSize) (hI : maxMessageSize ≤ maxInt)
      (hc : 0 < capacity) (h : New maxMessageSize capacity = .ok f) :
      Reach maxMessageSize capacity f []
  | push (f f' : FastFifo) (q : List (List Byte)) (msg : List Byte) (e : error)
      (hr : Reach maxMessageSize capacity f q) (h : Push f msg = .ok (f', e)) :
      Reach maxMessageSize capacity f' (if e = none then q ++ [msg] else q)
  | pop (f f' : FastFifo) (q : List (List Byte)) (dst dst' : Slice) (n : Int) (e : error)
      (hr : Reach maxMessageSize capacity f q) (h : Pop f dst = .ok (f', dst', n, e)) :
      Reach maxMessageSize capacity f' (if e = none then q.tail else q)

/-! ## Sample states

`New(255, 8)` has a one-byte header.  `sampleFull` is that queue after
`Push("abc")`; `sampleEmpty` is it after the following `Pop`, empty again with
both ranges starting at offset 4; `sampleWrapped` is `sampleEmpty` after
`Push("vwxyz")`, whose payload runs over the end of the ring. -/

def sampleNew : FastFifo :=
  { buffer := [0, 0, 0, 0, 0, 0, 0, 0], headerBuffer := [0], maxMessageSize := 255,
    data := { start := 0, length := 0 }, freeSpace := { start := 0, length := 8 } }

def sampleFull : FastFifo :=
  { buffer := [3, 97, 98, 99, 0, 0, 0, 0], headerBuffer := [0], maxMessageSize := 255,
    data := { start := 0, length := 4 }, freeSpace := { start := 4, length := 4 } }

def sampleEmpty : FastFifo :=
  { buffer := [3, 97, 98, 99, 0, 0, 0, 0], headerBuffer := [3], maxMessageSize := 255,
    data := { start := 4, length := 0 }, freeSpace := { start := 4, length := 8 } }

def sampleWrapped : FastFifo :=
  { buffer := [121, 122, 98, 99, 5, 118, 119, 120], headerBuffer := [3], maxMessageSize := 255,
    data := { start := 4, length := 6 }, freeSpace := { start := 2, length := 2 } }

/-- The queue `New(0, 8)`: no header bytes at all. -/
def sampleZero : FastFifo :=
  { buffer := [0, 0, 0, 0, 0, 0, 0, 0], headerBuffer := [], maxMessageSize := 0,
    data := { start := 0, length := 0 }, freeSpace := { start := 0, length := 8 } }

/-- The queue `sampleWrapped` after a `Pop` refused with `ErrBufferTooSmall`:
only the header scratch buffer, now holding the decoded header, differs. -/
def sampleRefused : FastFifo :=
  { buffer := [121, 122, 98, 99, 5, 118, 119, 120], headerBuffer := [5], maxMessageSize := 255,
    data := { start := 4, length := 6 }, freeSpace := { start := 2, length := 2 } }

/-- The queue `sampleRefused` after its only record has been removed. -/
def sampleDrained : FastFifo :=
  { buffer := [121, 122, 98, 99, 5, 118, 119, 120], headerBuffer := [5], maxMessageSize := 255,
    data := { start := 2, length := 0 }, freeSpace := { start := 2, length := 8 } }

/-- The queue `sampleEmpty` after `Push` of the empty payload. -/
def sampleBlank : FastFifo :=
  { buffer := [3, 97, 98, 99, 0, 0, 0, 0], headerBuffer := [3], maxMessageSize := 255,
    data := { start := 4, length := 1 }, freeSpace := { start := 5, length := 7 } }

/-- The pending payloads after one call that returned `r`. -/
def pendingStep (q : List (List Byte)) : Call → Result → List (List Byte)
  | .push m, .pushed none => q ++ [m]
  | .pop _, .popped _ none _ => q.tail
  | _, _ => q

/-- The pending payloads after a sequence of calls with their results. -/
def pendingAfter (q : List (List Byte)) : List Call → List Result → List (List Byte)
  | c :: cs, r :: rs => pendingAfter (pendingStep q c r) cs rs
  | _, _ => q

/-! ## The ring as a cyclic sequence -/

/-- The ring `w` is the ring `b` after `src` has been written cyclically from
offset `s`: read from `s` on, `w` starts with `src` and goes on as `b` did. -/
def CyclicWrite (b : List Byte) (s : Nat) (src w : List Byte) : Prop :=
  w.length = b.length ∧ w.rotate s = src ++ (b.rotate s).drop src.length

/-- The link between a queue state over a ring of `C` bytes and its pending
payloads `q`: the sizes are those fixed by `New`, both ranges lie in the
ring with the free range starting where the occupied range ends, the two
lengths add up to `C`, and the occupied bytes, read cyclically from
`data.start`, are the records of `q` in order. -/
def Inv (maxMessageSize : Int) (C : Nat) (f : FastFifo) (q : List (List Byte)) : Prop :=
  f.buffer.length = C ∧
  (f.headerBuffer.length : Int) = calcMsgHeaderSize maxMessageSize ∧
  f.maxMessageSize = maxMessageSize ∧
  (∀ m ∈ q, (m.length : Int) ≤ maxMessageSize) ∧
  ∃ ds dl : Nat, ds < C ∧ dl ≤ C ∧
    f.data = { start := (ds : Int), length := (dl : Int) } ∧
    f.freeSpace = { start := (((ds + dl) % C : Nat) : Int), length := (C : Int) - (dl : Int) } ∧
    (f.buffer.rotate ds).take dl = encodeQ f.headerBuffer.length q

/-! ## The generic procedures of the specification -/

/-- The ring after `src` has been written into it cyclically from offset
`start mod C`: the byte at offset `j` is `src[k]` when `j` lies `k < len(src)`
places after the start, going round the ring, and is the old byte
otherwise. -/
def cyclicPut (ring : List Byte) (start : Nat) (src : List Byte) : List Byte :=
  (List.range ring.length).map (fun j =>
    (src[(j + ring.length - start % ring.length) % ring.length]?).getD (ring.getD j 0))

/-- The number a sequence of bytes spells in little-endian order. -/
def leValue : List Byte → Nat
  | [] => 0
  | b :: bs => b.val + 256 * leValue bs

/-- Reading a sequence of bytes as successive records, an `H`-byte
little-endian length followed by that many payload bytes: the payloads in
order, or `none` when the bytes do not end with a whole record.  The first
argument bounds the number of records; the length of the bytes is enough
for `H >= 1`. -/
def parseRecords (H : Nat) : Nat → List Byte → Option (List (List Byte))
  | 0, bytes => if bytes = [] then some [] else none
  | fuel + 1, bytes =>
    if bytes = [] then some []
    else if H + leValue (bytes.take H) ≤ bytes.length then
      (parseRecords H fuel (bytes.drop (H + leValue (bytes.take H)))).map
        (fun rest => (bytes.drop H).take (leValue (bytes.take H)) :: rest)
    else none

/-- The bytes a successful `Pop` hands to its caller, `dst[:n]`; empty for
every other result. -/
def Result.bytes : Result → List Byte
  | .popped n none dst => dst.vis.take n.toNat
  | _ => []

/-- The text of the tests as bytes. -/
def ascii (s : String) : List Byte := s.toList.map (fun c => toByte c.toNat)

/-! ## The trace of `TestFastFifo`

The test works on `New(260, 13)`, a queue with a two-byte header, and pops
into one 11-byte buffer `buf` that keeps what earlier pops left in it.
`traceBefore` is the queue just before `Push("abcde")`, `traceAfter` just
after it, `traceEnd` after the last call. -/

def traceNew : FastFifo :=
  { buffer := [0, 0, 0, 0, 0, 0, 0, 0, 0, 0, 0, 0, 0], headerBuffer := [0, 0],
    maxMessageSize := 260, data := { start := 0, length := 0 },
    freeSpace := { start := 0, length := 13 } }

def traceBefore : FastFifo :=
  { buffer := [4, 0, 97, 98, 99, 100, 4, 0, 49, 50, 51, 52, 65], headerBuffer := [4, 0],
    maxMessageSize := 260, data := { start := 6, length := 6 },
    freeSpace := { start := 12, length := 7 } }

def traceAfter : FastFifo :=
  { buffer := [0, 97, 98, 99, 100, 101, 4, 0, 49, 50, 51, 52, 5], headerBuffer := [5, 0],
    maxMessageSize := 260, data := { start := 6, length := 13 },
    freeSpace := { start := 6, length := 0 } }

def traceEnd : FastFifo :=
  { buffer := [53, 54, 55, 56, 57, 65, 11, 0, 48, 49, 50, 51, 52], headerBuffer := [11, 0],
    maxMessageSize := 260, data := { start := 6, length := 0 },
    freeSpace := { start := 6, length := 13 } }

/-- The calls of the test up to `Push("abcde")`. -/
def traceCallsBefore : List Call :=
  [Call.pop ⟨List.replicate 11 0, []⟩,
    Call.push (ascii "0123456789A"),
    Call.pop ⟨List.replicate 10 0, []⟩,
    Call.pop ⟨List.replicate 11 0, []⟩,
    Call.push (ascii "001234567890"),
    Call.push (List.replicate 261 0),
    Call.push (ascii "abcd"),
    Call.push (ascii "1234"),
    Call.push (ascii "."),
    Call.pop ⟨ascii "0123456789A", []⟩]

/-- The calls of the test after `Push("abcde")`. -/
def traceCallsAfter : List Call :=
  [Call.push (ascii "."),
    Call.pop ⟨ascii "abcd456789A", []⟩,
    Call.pop ⟨ascii "1234456789A", []⟩,
    Call.push (ascii "0123456789A"),
    Call.pop ⟨ascii "abcde56789A", []⟩]

/-- What the calls of `traceCallsBefore` return. -/
def traceResultsBefore : List Result :=
  [.popped 0 (some .ErrNoMoreData) ⟨List.replicate 11 0, []⟩,
    .pushed none,
    .popped 0 (some .ErrBufferTooSmall) ⟨List.replicate 10 0, []⟩,
    .popped 11 none ⟨ascii "0123456789A", []⟩,
    .pushed (some .ErrNoSpaceLeft),
    .pushed (some .ErrMessageTooLong),
    .pushed none,
    .pushed none,
    .pushed (some .ErrNoSpaceLeft),
    .popped 4 none ⟨ascii "abcd456789A", []⟩]

/-- What the calls of `traceCallsAfter` return. -/
def traceResultsAfter : List Result :=
  [.pushed (some .ErrNoSpaceLeft),
    .popped 4 none ⟨ascii "1234456789A", []⟩,
    .popped 5 none ⟨ascii "abcde56789A", []⟩,
    .pushed none,
    .popped 11 none ⟨ascii "0123456789A", []⟩]

end fastfifo


namespace fastfifo

/-! ## Sequencing -/

@[simp] theorem Outcome.ok_bind {α β : Type} (a : α) (k : α → Outcome β) :
    (Outcome.ok a >>= k) = k a := rfl

@[simp] theorem Outcome.panic_bind {α β : Type} (k : α → Outcome β) :
    (Outcome.panic >>= k) = Outcome.panic := rfl

@[simp] theorem Outcome.hang_bind {α β : Type} (k : α → Outcome β) :
    (Outcome.hang >>= k) = Outcome.hang := rfl

@[simp] theorem Outcome.pure_eq {α : Type} (a : α) : (pure a : Outcome α) = Outcome.ok a := rfl

/-! ## The header width -/

theorem calcLoop_digits (fuel : Nat) :
    ∀ (n : Nat) (size : Int), n ≤ fuel →
      calcMsgHeaderSize.loop fuel (n : Int) size = size + ((Nat.digits 256 n).length : Nat) := by
  induction fuel with
  | zero =>
    intro n size h
    have hn : n = 0 := by omega
    subst hn
    simp [calcMsgHeaderSize.loop]
  | succ fuel ih =>
    intro n size h
    rcases Nat.eq_zero_or_pos n with hn | hn
    · subst hn
      simp [calcMsgHeaderSize.loop]
    · have hpos : ((n : Int) > 0) := by omega
      have hdiv : ((n : Int) / 256) = ((n / 256 : Nat) : Int) := by simp
      have hle : n / 256 ≤ fuel := by omega
      rw [calcMsgHeaderSize.loop, if_pos hpos, hdiv, ih (n / 256) (size + 1) hle,
        Nat.digits_def' (by decide) hn]
      simp only [List.length_cons]
      push_cast
      ring

theorem calcMsgHeaderSize_nat (n : Nat) :
    calcMsgHeaderSize (n : Int) = ((Nat.digits 256 n).length : Nat) := by
  unfold calcMsgHeaderSize
  rw [Int.toNat_natCast, calcLoop_digits n n 0 (Nat.le_refl n)]
  simp

theorem calcMsgHeaderSize_nonpos (m : Int) (h : m ≤ 0) : calcMsgHeaderSize m = 0 := by
  unfold calcMsgHeaderSize
  have h0 : m.toNat = 0 := by omega
  rw [h0]
  rfl

/-- The header width as a natural number, for a positive size limit: it is
positive, at most 8 when the limit is a 64-bit integer, and the limit is
below `256 ^ H`. -/
theorem headerWidth_facts (m : Int) (hm : 0 < m) :
    ∃ H : Nat, calcMsgHeaderSize m = (H : Int) ∧ 1 ≤ H ∧ m < (256 : Int) ^ H ∧
      (256 : Int) ^ (H - 1) ≤ m ∧ (m ≤ maxInt → H ≤ 8) := by
  obtain ⟨n, rfl⟩ : ∃ n : Nat, m = (n : Int) := ⟨m.toNat, by omega⟩
  have hn : 0 < n := by omega
  refine ⟨(Nat.digits 256 n).length, calcMsgHeaderSize_nat n, ?_, ?_, ?_, ?_⟩
  · rw [Nat.digits_def' (by decide) hn]
    simp
  · have := @Nat.lt_base_pow_length_digits 256 n (by decide)
    exact_mod_cast this
  · have h1 := Nat.base_pow_length_digits_le 256 n (by decide) (by omega)
    have h2 : 1 ≤ (Nat.digits 256 n).length := by
      rw [Nat.digits_def' (by decide) hn]
      simp
    obtain ⟨k, hk⟩ : ∃ k, (Nat.digits 256 n).length = k + 1 := ⟨_, (Nat.sub_add_cancel h2).symm⟩
    rw [hk] at h1 ⊢
    rw [pow_succ] at h1
    have h3 : 256 ^ k ≤ n := by omega
    simp only [Nat.add_sub_cancel]
    exact_mod_cast h3
  · intro hI
    by_contra hlt
    have h9 : 9 ≤ (Nat.digits 256 n).length := by omega
    have h1 := Nat.base_pow_length_digits_le 256 n (by decide) (by omega)
    have h2 : 256 ^ 9 ≤ 256 ^ (Nat.digits 256 n).length := Nat.pow_le_pow_right (by decide) h9
    have h3 : (n : Int) ≤ 2 ^ 63 - 1 := hI
    norm_num at h2 h3
    omega

/-! ## Slice expressions at natural-number indices -/

theorem sliceFrom_nat (s : List Byte) (n : Nat) (h : n ≤ s.length) :
    sliceFrom s (n : Int) = .ok (s.drop n) := by
  unfold sliceFrom
  rw [if_pos ⟨by omega, by omega⟩, Int.toNat_natCast]

theorem sliceTo_nat (s : List Byte) (n : Nat) (h : n ≤ s.length) :
    sliceTo s (n : Int) = .ok (s.take n) := by
  unfold sliceTo
  rw [if_pos ⟨by omega, by omega⟩, Int.toNat_natCast]

theorem sliceRange_nat (s : List Byte) (a b : Nat) (h1 : a ≤ b) (h2 : b ≤ s.length) :
    sliceRange s (a : Int) (b : Int) = .ok ((s.drop a).take (b - a)) := by
  unfold sliceRange
  have hba : ((b : Int) - (a : Int)).toNat = b - a := by omega
  rw [if_pos ⟨by omega, by omega, by omega⟩, Int.toNat_natCast, hba]

theorem putBack_nat (s : List Byte) (n : Nat) (view : List Byte) :
    putBack s (n : Int) view = s.take n ++ view := by
  unfold putBack
  rw [Int.toNat_natCast]

theorem sliceRange_zero (s : List Byte) (b : Nat) (h : b ≤ s.length) :
    sliceRange s 0 (b : Int) = .ok (s.take b) := by
  have := sliceRange_nat s 0 b (Nat.zero_le _) h
  simpa using this

theorem sliceFrom_zero (s : List Byte) : sliceFrom s 0 = .ok s := by
  have := sliceFrom_nat s 0 (Nat.zero_le _)
  simpa using this

theorem putBack_zero (s view : List Byte) : putBack s 0 view = view := by
  have := putBack_nat s 0 view
  simpa using this

theorem copy_of_le (dst src : List Byte) (h : src.length ≤ dst.length) :
    copy dst src = (src ++ dst.drop src.length, (src.length : Int)) := by
  unfold copy
  rw [Nat.min_eq_right h, List.take_length]

/-! ## The offset loops of `utils.go` -/

theorem readLoop_spec (n : Nat) (hn : 0 < n) (fuel : Nat) :
    ∀ s : Nat, s ≤ fuel →
      ∃ r : Nat, readCrossBoundary.loop (n : Int) fuel (s : Int) = .ok (r : Int) ∧ r ≤ n ∧
        r % n = s % n ∧ (s ≤ n → r = s) := by
  induction fuel with
  | zero =>
    intro s hs
    have : s = 0 := by omega
    subst this
    refine ⟨0, ?_, by omega, rfl, fun _ => rfl⟩
    rw [readCrossBoundary.loop, if_neg (by omega)]
  | succ fuel ih =>
    intro s hs
    by_cases hgt : s > n
    · obtain ⟨r, h1, h2, h3, _⟩ := ih (s - n) (by omega)
      refine ⟨r, ?_, h2, ?_, fun h => by omega⟩
      · rw [readCrossBoundary.loop, if_pos (by omega)]
        have : (s : Int) - (n : Int) = ((s - n : Nat) : Int) := by omega
        rw [this, h1]
      · rw [h3]
        exact (Nat.mod_eq_sub_mod (by omega)).symm
    · refine ⟨s, ?_, by omega, rfl, fun _ => rfl⟩
      rw [readCrossBoundary.loop, if_neg (by omega)]

theorem writeLoop_spec (n : Nat) (hn : 0 < n) (fuel : Nat) :
    ∀ s : Nat, s ≤ fuel →
      writeCrossBoundary.loop (n : Int) fuel (s : Int) = .ok ((s % n : Nat) : Int) := by
  induction fuel with
  | zero =>
    intro s hs
    have : s = 0 := by omega
    subst this
    rw [writeCrossBoundary.loop, if_neg (by omega)]
    simp
  | succ fuel ih =>
    intro s hs
    by_cases hge : s ≥ n
    · rw [writeCrossBoundary.loop, if_pos (by omega)]
      have : (s : Int) - (n : Int) = ((s - n : Nat) : Int) := by omega
      rw [this, ih (s - n) (by omega), ← Nat.mod_eq_sub_mod hge]
    · rw [writeCrossBoundary.loop, if_neg (by omega), Nat.mod_eq_of_lt (by omega)]

/-! ## Cyclic reads and writes -/

theorem rotate_eq_of_mod_eq {α : Type} (l : List α) (r s : Nat) (hr : r ≤ l.length)
    (h : r % l.length = s % l.length) : l.rotate s = l.drop r ++ l.take r := by
  rw [← List.rotate_mod l s, ← h, List.rotate_mod, List.rotate_eq_drop_append_take hr]

theorem readCrossBoundary_spec (src dst : List Byte) (s len : Nat) (hC : 0 < src.length)
    (hlen : len ≤ src.length) (hd : len ≤ dst.length) :
    readCrossBoundary src (s : Int) (len : Int) dst =
      .ok ((src.rotate s).take len ++ dst.drop len, (len : Int)) := by
  obtain ⟨r, hr, hrn, hmod, _⟩ := readLoop_spec src.length hC s s (Nat.le_refl s)
  have hrot := rotate_eq_of_mod_eq src r s hrn hmod
  unfold readCrossBoundary
  rw [Int.toNat_natCast, hr]
  simp only [Outcome.ok_bind]
  have hub : (src.length : Int) - (r : Int) = ((src.length - r : Nat) : Int) := by omega
  rw [hub]
  by_cases hw : src.length - r < len
  · rw [if_pos (by exact_mod_cast hw)]
    have e1 : (r : Int) + ((src.length - r : Nat) : Int) = ((src.length : Nat) : Int) := by omega
    have e2 : (len : Int) - ((src.length - r : Nat) : Int) = ((len - (src.length - r) : Nat) : Int) := by
      omega
    rw [e1, e2, sliceRange_nat src r src.length hrn (Nat.le_refl _)]
    simp only [Outcome.ok_bind]
    have ha : ((src.drop r).take (src.length - r)) = src.drop r :=
      List.take_of_length_le (by rw [List.length_drop])
    have hla : (src.drop r).length = src.length - r := List.length_drop _ _
    rw [ha, copy_of_le dst (src.drop r) (by omega), hla]
    have hv : (src.drop r ++ dst.drop (src.length - r)).drop (src.length - r) =
        dst.drop (src.length - r) := List.drop_left' hla
    have ht : (src.drop r ++ dst.drop (src.length - r)).take (src.length - r) =
        src.drop r := List.take_left' hla
    have hlv : (src.drop r ++ dst.drop (src.length - r)).length = dst.length := by
      rw [List.length_append, hla, List.length_drop]; omega
    have hl : (src.take (len - (src.length - r))).length = len - (src.length - r) := by
      rw [List.length_take]; omega
    dsimp only
    rw [sliceFrom_nat _ _ (by omega)]
    simp only [Outcome.ok_bind]
    rw [sliceRange_zero src _ (by omega)]
    simp only [Outcome.ok_bind, Outcome.pure_eq]
    rw [hv, copy_of_le _ _ (by rw [hl, List.length_drop]; omega)]
    dsimp only
    rw [putBack_nat, ht, hl, hrot, List.take_append_eq_append_take, hla]
    have t1 : List.take len (List.drop r src) = List.drop r src :=
      List.take_of_length_le (by rw [hla]; omega)
    have t2 : List.take (len - (src.length - r)) (List.take r src) =
        List.take (len - (src.length - r)) src := by
      rw [List.take_take, Nat.min_eq_left (by omega)]
    have t3 : List.drop (len - (src.length - r)) (List.drop (src.length - r) dst) =
        List.drop len dst := by
      rw [List.drop_drop]
      congr 1
      omega
    have t4 : ((src.length - r : Nat) : Int) + ((len - (src.length - r) : Nat) : Int) =
        (len : Int) := by omega
    rw [t1, t2, t3, t4, List.append_assoc]
  · rw [if_neg (by omega)]
    have e1 : (r : Int) + (len : Int) = ((r + len : Nat) : Int) := by omega
    rw [e1, sliceRange_nat src r (r + len) (by omega) (by omega)]
    simp only [Outcome.ok_bind, Outcome.pure_eq]
    have hl : ((src.drop r).take (r + len - r)).length = len := by
      rw [List.length_take, List.length_drop]; omega
    rw [copy_of_le _ _ (by rw [hl]; exact hd), hl, hrot,
      List.take_append_of_le_length (by rw [List.length_drop]; omega), Nat.add_sub_cancel_left]

theorem cyclicWrite_linear (b src : List Byte) (s : Nat) (h : s + src.length ≤ b.length) :
    CyclicWrite b s src (b.take s ++ (src ++ b.drop (s + src.length))) := by
  have hs : s ≤ b.length := by omega
  have hlt : (b.take s).length = s := by rw [List.length_take]; omega
  constructor
  · simp only [List.length_append, List.length_take, List.length_drop]
    omega
  · have hrot := List.rotate_append_length_eq (b.take s) (src ++ b.drop (s + src.length))
    rw [hlt] at hrot
    rw [hrot, List.rotate_eq_drop_append_take hs,
      List.drop_append_of_le_length (by rw [List.length_drop]; omega), List.drop_drop,
      List.append_assoc]

theorem cyclicWrite_mod (b src w : List Byte) (s : Nat)
    (h : CyclicWrite b (s % b.length) src w) : CyclicWrite b s src w := by
  obtain ⟨h1, h2⟩ := h
  refine ⟨h1, ?_⟩
  have e : w.rotate (s % b.length) = w.rotate s := by
    rw [← h1]
    exact List.rotate_mod w s
  rw [← e, h2, List.rotate_mod]

theorem writeCrossBoundary_spec (src dst : List Byte) (s : Nat) (hC : 0 < dst.length)
    (hsrc : src.length ≤ dst.length) :
    ∃ w, writeCrossBoundary src dst (s : Int) = .ok (w, (src.length : Int)) ∧
      CyclicWrite dst s src w := by
  have hr := writeLoop_spec dst.length hC s s (Nat.le_refl s)
  have hrlt : s % dst.length < dst.length := Nat.mod_lt _ hC
  generalize hrdef : s % dst.length = r at hr hrlt
  have hcw : ∀ w, CyclicWrite dst r src w → CyclicWrite dst s src w := by
    intro w hw
    apply cyclicWrite_mod
    rw [hrdef]
    exact hw
  unfold writeCrossBoundary
  rw [Int.toNat_natCast, hr]
  simp only [Outcome.ok_bind]
  have hub : (dst.length : Int) - (r : Int) = ((dst.length - r : Nat) : Int) := by omega
  rw [hub, sliceFrom_nat dst r (by omega)]
  simp only [Outcome.ok_bind]
  have hlv : (dst.drop r).length = dst.length - r := List.length_drop _ _
  by_cases hw : dst.length - r < src.length
  · rw [if_pos (by exact_mod_cast hw)]
    rw [sliceTo_nat src _ (by omega)]
    simp only [Outcome.ok_bind]
    have hla : (src.take (dst.length - r)).length = dst.length - r := by
      rw [List.length_take]; omega
    rw [copy_of_le _ _ (by rw [hla, hlv])]
    dsimp only
    rw [putBack_nat, sliceFrom_zero]
    simp only [Outcome.ok_bind]
    rw [sliceFrom_nat src _ (by omega)]
    simp only [Outcome.ok_bind, Outcome.pure_eq]
    have hd0 : List.drop (src.take (dst.length - r)).length (dst.drop r) = [] :=
      List.drop_of_length_le (by rw [hla, hlv])
    rw [hd0, List.append_nil]
    have hlt : (dst.take r).length = r := by rw [List.length_take]; omega
    have hlb : (src.drop (dst.length - r)).length = src.length - (dst.length - r) :=
      List.length_drop _ _
    have hl1 : (dst.take r ++ src.take (dst.length - r)).length = dst.length := by
      rw [List.length_append, hlt, hla]; omega
    rw [copy_of_le _ _ (by rw [hlb, hl1]; omega)]
    dsimp only
    rw [putBack_zero, hlb, hla,
      List.drop_append_of_le_length (by rw [hlt]; omega)]
    have e4 : ((dst.length - r : Nat) : Int) + ((src.length - (dst.length - r) : Nat) : Int) =
        (src.length : Int) := by omega
    rw [e4]
    refine ⟨_, rfl, hcw _ ⟨?_, ?_⟩⟩
    · simp only [List.length_append, List.length_take, List.length_drop]
      omega
    · have hlen : (src.drop (dst.length - r) ++
          (dst.take r).drop (src.length - (dst.length - r))).length = r := by
        rw [List.length_append, hlb, List.length_drop, hlt]; omega
      have hrot := List.rotate_append_length_eq
        (src.drop (dst.length - r) ++ (dst.take r).drop (src.length - (dst.length - r)))
        (src.take (dst.length - r))
      rw [hlen, List.append_assoc] at hrot
      have z : List.drop src.length (List.drop r dst) = [] :=
        List.drop_of_length_le (by rw [hlv]; omega)
      rw [hrot, List.rotate_eq_drop_append_take (by omega : r ≤ dst.length),
        List.drop_append_eq_append_drop, hlv, z, List.nil_append, ← List.append_assoc,
        List.take_append_drop]
  · rw [if_neg (by omega)]
    simp only [Outcome.pure_eq]
    rw [copy_of_le _ _ (by rw [hlv]; omega)]
    dsimp only
    rw [putBack_nat, List.drop_drop]
    exact ⟨_, rfl, hcw _ (cyclicWrite_linear dst src r (by omega))⟩

theorem cyclicWrite_comp (b b1 b2 a c : List Byte) (s : Nat)
    (h1 : CyclicWrite b s a b1) (h2 : CyclicWrite b1 (s + a.length) c b2)
    (hlen : a.length + c.length ≤ b.length) : CyclicWrite b s (a ++ c) b2 := by
  obtain ⟨l1, r1⟩ := h1
  obtain ⟨l2, r2⟩ := h2
  refine ⟨l2.trans l1, ?_⟩
  have hR : (b.rotate s).length = b.length := List.length_rotate _ _
  have e1 : b1.rotate (s + a.length) = (b.rotate s).drop a.length ++ a := by
    rw [← List.rotate_rotate, r1, List.rotate_append_length_eq]
  have hX : (b2.rotate s).length = b.length := by
    rw [List.length_rotate, l2, l1]
  have e2 : (b2.rotate s).rotate a.length =
      (c ++ (b.rotate s).drop (a.length + c.length)) ++ a := by
    rw [List.rotate_rotate, r2, e1,
      List.drop_append_of_le_length (by rw [List.length_drop, hR]; omega), List.drop_drop,
      List.append_assoc]
  rw [List.rotate_eq_drop_append_take (by omega)] at e2
  obtain ⟨e3, e4⟩ := List.append_inj' e2 (by rw [List.length_take]; omega)
  rw [← List.take_append_drop a.length (b2.rotate s), e3, e4, List.length_append,
    List.append_assoc]

/-! ## The length header -/

theorem putLoop_spec (size : Nat) (todo : Nat) :
    ∀ (i : Nat) (dst : List Byte), i + todo ≤ dst.length →
      putMsgLength.loop size todo i dst =
        .ok (dst.take i ++ ((List.range' i todo).map (fun j => toByte (size >>> (j * 8))) ++
          dst.drop (i + todo))) := by
  induction todo with
  | zero =>
    intro i dst _
    simp [putMsgLength.loop]
  | succ todo ih =>
    intro i dst h
    have hi : i < dst.length := by omega
    rw [putMsgLength.loop, setIndex, if_pos hi]
    simp only [Outcome.ok_bind]
    rw [ih (i + 1) _ (by rw [List.length_set]; omega)]
    have hset : dst.set i (toByte (size >>> (i * 8))) =
        dst.take i ++ toByte (size >>> (i * 8)) :: dst.drop (i + 1) := by
      rw [List.set_eq_take_append_cons_drop, if_pos hi]
    have hlt : (dst.take i).length = i := by rw [List.length_take]; omega
    have t1 : (dst.set i (toByte (size >>> (i * 8)))).take (i + 1) =
        dst.take i ++ [toByte (size >>> (i * 8))] := by
      rw [hset, List.take_append_eq_append_take, hlt, List.take_of_length_le (by omega)]
      simp
    have t2 : (dst.set i (toByte (size >>> (i * 8)))).drop (i + 1 + todo) =
        dst.drop (i + (todo + 1)) := by
      rw [hset, List.drop_append_eq_append_drop, hlt, List.drop_of_length_le (by omega)]
      have : i + 1 + todo - i = todo + 1 := by omega
      rw [this, List.nil_append, List.drop_succ_cons, List.drop_drop]
      congr 1
      omega
    rw [t1, t2]
    simp [List.range'_succ]

theorem putMsgLength_spec (f : FastFifo) (size : Nat) (dst : List Byte)
    (h1 : 1 ≤ f.headerBuffer.length) (h2 : f.headerBuffer.length ≤ dst.length) :
    putMsgLength f size dst =
      .ok (leBytes f.headerBuffer.length size ++ dst.drop f.headerBuffer.length) := by
  unfold putMsgLength
  rw [setIndex, if_pos (by omega)]
  simp only [Outcome.ok_bind]
  rw [putLoop_spec size _ 1 _ (by rw [List.length_set]; omega)]
  obtain ⟨k, hk⟩ : ∃ k, f.headerBuffer.length = k + 1 := ⟨_, (Nat.sub_add_cancel h1).symm⟩
  rw [hk] at h2 ⊢
  cases dst with
  | nil => simp at h2
  | cons d ds =>
    simp only [leBytes, List.range_eq_range', Nat.add_sub_cancel, List.set_cons_zero,
      List.range'_succ]
    simp [Nat.add_comm]

theorem pow256 (i : Nat) : 2 ^ (i * 8) = 256 ^ i := by
  rw [Nat.mul_comm, pow_mul]
  norm_num

theorem toByte_shift_val (size i : Nat) : (toByte (size >>> (i * 8))).val = size / 256 ^ i % 256 := by
  simp only [toByte, Nat.shiftRight_eq_div_pow, pow256]

theorem getIndex_leBytes (H size i : Nat) (h : i < H) :
    getIndex (leBytes H size) i = .ok (toByte (size >>> (i * 8))) := by
  unfold getIndex leBytes
  rw [List.get?_eq_getElem?, List.getElem?_map, List.getElem?_range h]
  rfl

theorem getLoop_spec (H size : Nat) (hH : H ≤ 8) (todo : Nat) :
    ∀ (i acc : Nat), i + todo = H → acc = size % 256 ^ i →
      getMsgLength.loop (leBytes H size) todo i acc = .ok (size % 256 ^ H) := by
  induction todo with
  | zero =>
    intro i acc h1 h2
    have : i = H := by omega
    subst this
    rw [getMsgLength.loop, h2]
  | succ todo ih =>
    intro i acc h1 h2
    rw [getMsgLength.loop, getIndex_leBytes H size i (by omega)]
    simp only [Outcome.ok_bind]
    apply ih (i + 1) _ (by omega)
    rw [toByte_shift_val, Nat.shiftLeft_eq, pow256]
    have hb : size / 256 ^ i % 256 < 256 := Nat.mod_lt _ (by decide)
    have hp : 256 ^ i * 256 ≤ 2 ^ 64 := by
      have : (256 : Nat) ^ (i + 1) ≤ 256 ^ 8 := Nat.pow_le_pow_right (by decide) (by omega)
      rw [pow_succ] at this
      norm_num at this ⊢
      exact this
    have hlt : size / 256 ^ i % 256 * 256 ^ i < 2 ^ 64 := by
      have hpos : 0 < 256 ^ i := Nat.pow_pos (by decide)
      calc size / 256 ^ i % 256 * 256 ^ i < 256 * 256 ^ i := Nat.mul_lt_mul_of_pos_right hb hpos
        _ = 256 ^ i * 256 := Nat.mul_comm _ _
        _ ≤ 2 ^ 64 := hp
    have hacc : acc < 2 ^ (i * 8) := by
      rw [h2, pow256]
      exact Nat.mod_lt _ (Nat.pow_pos (by decide))
    rw [Nat.mod_eq_of_lt hlt, Nat.lor_comm, Nat.mul_comm, ← pow256,
      ← Nat.mul_add_lt_is_or hacc, pow256, h2, Nat.mod_pow_succ, Nat.add_comm]

theorem getMsgLength_spec (f : FastFifo) (H size : Nat) (hf : f.headerBuffer = leBytes H size)
    (h1 : 1 ≤ H) (h8 : H ≤ 8) (hs : size < 256 ^ H) : getMsgLength f = .ok size := by
  have hlen : f.headerBuffer.length = H := by rw [hf]; simp [leBytes]
  unfold getMsgLength
  rw [hlen, hf, getIndex_leBytes H size 0 (by omega)]
  simp only [Outcome.ok_bind]
  rw [getLoop_spec H size h8 (H - 1) 1 _ (by omega) (by rw [toByte_shift_val]; simp),
    Nat.mod_eq_of_lt hs]

theorem leBytes_length (H size : Nat) : (leBytes H size).length = H := by
  simp [leBytes]

/-- A `Push` that passes both checks writes the record cyclically at
`freeSpace.start` and advances the ranges, whichever path it takes. -/
theorem Push_ok (f : FastFifo) (m : List Byte) (fs : Nat)
    (hfs : f.freeSpace.start = (fs : Int)) (hlt : fs < f.buffer.length)
    (hH : 1 ≤ f.headerBuffer.length)
    (hfit : ¬ (m.length : Int) > f.maxMessageSize)
    (hroom : ¬ (f.headerBuffer.length : Int) + (m.length : Int) > f.freeSpace.length)
    (htot : f.headerBuffer.length + m.length ≤ f.buffer.length) :
    ∃ B' hb', Push f m = .ok (pushAdvance { f with buffer := B', headerBuffer := hb' }
        ((f.headerBuffer.length : Int) + (m.length : Int)), none) ∧
      hb'.length = f.headerBuffer.length ∧
      CyclicWrite f.buffer fs (leBytes f.headerBuffer.length m.length ++ m) B' := by
  have hC : 0 < f.buffer.length := by omega
  have hsum : (fs : Int) + (f.headerBuffer.length : Int) =
      ((fs + f.headerBuffer.length : Nat) : Int) := by omega
  unfold Push
  rw [if_neg hfit]
  simp only []
  rw [if_neg hroom, hfs, hsum]
  have hLB := leBytes_length f.headerBuffer.length m.length
  -- the header written in place at `fs`
  have hdrLinear : f.headerBuffer.length ≤ f.buffer.length - fs →
      CyclicWrite f.buffer fs (leBytes f.headerBuffer.length m.length)
        (f.buffer.take fs ++ (leBytes f.headerBuffer.length m.length ++
          (f.buffer.drop fs).drop f.headerBuffer.length)) := by
    intro hle
    have := cyclicWrite_linear f.buffer (leBytes f.headerBuffer.length m.length) fs
      (by rw [hLB]; omega)
    rw [hLB] at this
    rw [List.drop_drop]
    exact this
  by_cases hp1 : (f.buffer.length : Int) - (fs : Int) ≥
      (f.headerBuffer.length : Int) + (m.length : Int)
  · rw [if_pos hp1, sliceFrom_nat _ _ (by omega)]
    simp only [Outcome.ok_bind]
    rw [putMsgLength_spec f _ _ hH (by rw [List.length_drop]; omega)]
    simp only [Outcome.ok_bind, Outcome.pure_eq]
    rw [putBack_nat]
    have hcw1 := hdrLinear (by omega)
    generalize f.buffer.take fs ++ (leBytes f.headerBuffer.length m.length ++
          (f.buffer.drop fs).drop f.headerBuffer.length) = buf1 at hcw1 ⊢
    have hl1 := hcw1.1
    rw [sliceFrom_nat _ _ (by rw [hl1]; omega)]
    simp only [Outcome.ok_bind]
    rw [copy_of_le (List.drop (fs + f.headerBuffer.length) buf1) m
      (by rw [List.length_drop, hl1]; omega)]
    dsimp only
    rw [putBack_nat, List.drop_drop]
    refine ⟨_, f.headerBuffer, rfl, rfl, ?_⟩
    apply cyclicWrite_comp _ _ _ _ _ _ hcw1 _ (by rw [hLB]; exact htot)
    rw [hLB]
    exact cyclicWrite_linear _ m (fs + f.headerBuffer.length) (by rw [hl1]; omega)
  · rw [if_neg hp1]
    by_cases hp2 : (f.buffer.length : Int) - (fs : Int) ≥ (f.headerBuffer.length : Int)
    · rw [if_pos hp2, sliceFrom_nat _ _ (by omega)]
      simp only [Outcome.ok_bind]
      rw [putMsgLength_spec f _ _ hH (by rw [List.length_drop]; omega)]
      simp only [Outcome.ok_bind, Outcome.pure_eq]
      rw [putBack_nat, hfs, hsum]
      have hcw1 := hdrLinear (by omega)
      generalize f.buffer.take fs ++ (leBytes f.headerBuffer.length m.length ++
          (f.buffer.drop fs).drop f.headerBuffer.length) = buf1 at hcw1 ⊢
      have hl1 := hcw1.1
      obtain ⟨w, hw, hcw2⟩ := writeCrossBoundary_spec m buf1 (fs + f.headerBuffer.length)
        (by rw [hl1]; exact hC) (by rw [hl1]; omega)
      rw [hw]
      simp only [Outcome.ok_bind]
      refine ⟨w, f.headerBuffer, rfl, rfl, ?_⟩
      apply cyclicWrite_comp _ _ _ _ _ _ hcw1 _ (by rw [hLB]; exact htot)
      rw [hLB]
      exact hcw2
    · rw [if_neg hp2, putMsgLength_spec f _ _ hH (Nat.le_refl _)]
      simp only [Outcome.ok_bind, Outcome.pure_eq]
      rw [List.drop_length, List.append_nil, hfs]
      obtain ⟨w1, hw1, hcw1⟩ := writeCrossBoundary_spec (leBytes f.headerBuffer.length m.length)
        f.buffer fs hC (by rw [hLB]; omega)
      rw [hw1]
      simp only [Outcome.ok_bind]
      rw [hLB, hsum]
      have hl1 := hcw1.1
      obtain ⟨w, hw, hcw2⟩ := writeCrossBoundary_spec m w1 (fs + f.headerBuffer.length)
        (by rw [hl1]; exact hC) (by rw [hl1]; omega)
      rw [hw]
      simp only [Outcome.ok_bind]
      refine ⟨w, leBytes f.headerBuffer.length m.length, rfl, hLB, ?_⟩
      apply cyclicWrite_comp _ _ _ _ _ _ hcw1 _ (by rw [hLB]; exact htot)
      rw [hLB]
      exact hcw2

/-! ## The invariant -/

theorem wrap_once (a t C : Nat) (hC : 0 < C) (ht : t ≤ C) :
    (if ((a % C : Nat) : Int) + (t : Int) ≥ (C : Int)
      then ((a % C : Nat) : Int) + (t : Int) - (C : Int)
      else ((a % C : Nat) : Int) + (t : Int)) = (((a + t) % C : Nat) : Int) := by
  have hlt : a % C < C := Nat.mod_lt a hC
  have e : (a + t) % C = (a % C + t) % C := (Nat.mod_add_mod a C t).symm
  by_cases h : C ≤ a % C + t
  · have e2 : (a % C + t) % C = a % C + t - C := by
      rw [Nat.mod_eq_sub_mod h, Nat.mod_eq_of_lt (by omega)]
    rw [if_pos (by omega), e, e2]
    omega
  · have e2 : (a % C + t) % C = a % C + t := Nat.mod_eq_of_lt (by omega)
    rw [if_neg (by omega), e, e2]
    omega

theorem encodeQ_append (H : Nat) (q : List (List Byte)) (m : List Byte) :
    encodeQ H (q ++ [m]) = encodeQ H q ++ (leBytes H m.length ++ m) := by
  induction q with
  | nil => simp [encodeQ]
  | cons a q ih => simp [encodeQ, ih]

/-- After a cyclic write of `rec` at the end of the occupied range, the
occupied bytes are the old ones followed by `rec`. -/
theorem take_rotate_after_write (B B' rec : List Byte) (ds dl : Nat)
    (hdl : dl + rec.length ≤ B.length)
    (hcw : CyclicWrite B ((ds + dl) % B.length) rec B') :
    (B'.rotate ds).take (dl + rec.length) = (B.rotate ds).take dl ++ rec := by
  obtain ⟨hl, hr⟩ := hcw
  have hr' : B'.rotate (ds + dl) = rec ++ (B.rotate (ds + dl)).drop rec.length := by
    have e : B'.rotate ((ds + dl) % B.length) = B'.rotate (ds + dl) := by
      rw [← hl]
      exact List.rotate_mod _ _
    rw [← e, hr, List.rotate_mod]
  have hR : (B.rotate ds).length = B.length := List.length_rotate _ _
  have hR' : (B'.rotate ds).length = B.length := by rw [List.length_rotate, hl]
  rw [← List.rotate_rotate, ← List.rotate_rotate,
    List.rotate_eq_drop_append_take (by omega : dl ≤ (B'.rotate ds).length),
    List.rotate_eq_drop_append_take (by omega : dl ≤ (B.rotate ds).length),
    List.drop_append_of_le_length (by rw [List.length_drop]; omega), List.drop_drop,
    ← List.append_assoc] at hr'
  obtain ⟨e1, e2⟩ := List.append_inj' hr' (by rw [List.length_take, List.length_take]; omega)
  rw [List.take_add, e1, e2, List.take_left' rfl]

theorem Inv_encode_length (mms : Int) (C : Nat) (f : FastFifo) (q : List (List Byte))
    (h : Inv mms C f q) :
    ((encodeQ f.headerBuffer.length q).length : Int) = f.data.length ∧
      f.data.length + f.freeSpace.length = (C : Int) := by
  obtain ⟨hB, _, _, _, ds, dl, _, hdl, hdata, hfree, henc⟩ := h
  have := congrArg List.length henc
  rw [List.length_take, List.length_rotate, hB, Nat.min_eq_left hdl] at this
  rw [hdata, hfree, ← this]
  constructor
  · rfl
  · simp

/-- On a state satisfying the invariant, `Push` returns what the abstract
`Push` returns, and changes nothing when it refuses the payload. -/
theorem Push_inv (mms : Int) (C : Nat) (f : FastFifo) (q : List (List Byte)) (m : List Byte)
    (hm : 0 < mms) (hC : 0 < C) (h : Inv mms C f q) :
    ∃ f', Push f m = .ok (f', (specPush mms f.headerBuffer.length C q m).2) ∧
      Inv mms C f' (specPush mms f.headerBuffer.length C q m).1 ∧
      ((specPush mms f.headerBuffer.length C q m).2 ≠ none → f' = f) := by
  have hlen := (Inv_encode_length mms C f q h).1
  obtain ⟨hB, hH, hM, hq, ds, dl, hds, hdl, hdata, hfree, henc⟩ := h
  obtain ⟨H, hHe, hH1, _, _, _⟩ := headerWidth_facts mms hm
  have hHl : f.headerBuffer.length = H := by
    rw [hHe] at hH
    exact_mod_cast hH
  rw [hdata] at hlen
  have hlen' : (encodeQ f.headerBuffer.length q).length = dl := by
    simp only [] at hlen
    exact_mod_cast hlen
  unfold specPush
  by_cases c1 : (m.length : Int) > mms
  · rw [if_pos c1]
    refine ⟨f, ?_, ⟨hB, hH, hM, hq, ds, dl, hds, hdl, hdata, hfree, henc⟩, fun _ => rfl⟩
    unfold Push
    rw [hM, if_pos c1]
    rfl
  · rw [if_neg c1]
    by_cases c2 : f.headerBuffer.length + m.length > C - (encodeQ f.headerBuffer.length q).length
    · rw [if_pos c2]
      refine ⟨f, ?_, ⟨hB, hH, hM, hq, ds, dl, hds, hdl, hdata, hfree, henc⟩, fun _ => rfl⟩
      unfold Push
      rw [hM, if_neg c1]
      simp only []
      rw [if_pos (by rw [hfree]; simp only []; omega)]
      rfl
    · rw [if_neg c2]
      obtain ⟨B', hb', hP, hbl, hcw⟩ := Push_ok f m ((ds + dl) % C) (by rw [hfree])
        (by rw [hB]; exact Nat.mod_lt _ hC) (by omega) (by rw [hM]; exact c1)
        (by rw [hfree]; simp only []; omega) (by omega)
      refine ⟨_, hP, ?_, fun hne => absurd rfl hne⟩
      have hrec : (leBytes f.headerBuffer.length m.length ++ m).length =
          f.headerBuffer.length + m.length := by
        rw [List.length_append, leBytes_length]
      refine ⟨hcw.1.trans hB, ?_, hM, ?_, ds, dl + (f.headerBuffer.length + m.length), hds,
        by omega, ?_, ?_, ?_⟩
      · simp only [pushAdvance]
        rw [hbl]
        exact hH
      · intro m' hm'
        rcases List.mem_append.1 hm' with h1 | h1
        · exact hq m' h1
        · rw [List.mem_singleton.1 h1]
          omega
      · simp only [pushAdvance, hdata]
        push_cast
        rfl
      · simp only [pushAdvance, hfree]
        have hw := wrap_once (ds + dl) (f.headerBuffer.length + m.length) C hC (by omega)
        rw [hcw.1, hB]
        have hc : ((f.headerBuffer.length + m.length : Nat) : Int) =
            (f.headerBuffer.length : Int) + (m.length : Int) := by push_cast; rfl
        rw [hc] at hw
        rw [hw, Nat.add_assoc ds dl]
        congr 1
        omega
      · simp only [pushAdvance]
        rw [hbl, encodeQ_append, ← henc, ← hrec]
        apply take_rotate_after_write
        · rw [hrec]; omega
        · rw [hB]; exact hcw

theorem uintToInt_small (n : Nat) (h : (n : Int) ≤ maxInt) : uintToInt n = (n : Int) := by
  have h' : (n : Int) ≤ 2 ^ 63 - 1 := h
  have hn : n < 2 ^ 63 := by
    norm_num at h' ⊢
    omega
  have hmod : n % 2 ^ 64 = n := Nat.mod_eq_of_lt (by omega)
  unfold uintToInt
  rw [hmod, if_pos hn]

/-- With a record at the head of the occupied range, `Pop` decodes its
length, compares it with the capacity of the destination, and then either
refuses or reads the payload and advances. -/
theorem Pop_unfold (mms : Int) (C : Nat) (f : FastFifo) (m : List Byte) (q : List (List Byte))
    (dst : Slice) (hm : 0 < mms) (hI : mms ≤ maxInt) (hC : 0 < C)
    (h : Inv mms C f (m :: q)) :
    Pop f dst =
      if dst.cap < (m.length : Int) then
        .ok ({ f with headerBuffer := leBytes f.headerBuffer.length m.length }, dst, 0,
          some .ErrBufferTooSmall)
      else
        readCrossBoundary f.buffer (f.data.start + (f.headerBuffer.length : Int))
            (m.length : Int) dst.vis >>= fun r =>
          .ok (popAdvance { f with headerBuffer := leBytes f.headerBuffer.length m.length }
              ((f.headerBuffer.length : Int) + (m.length : Int)),
            { dst with vis := r.1 }, (m.length : Int), none) := by
  have hlen := (Inv_encode_length mms C f _ h).1
  obtain ⟨hB, hH, hM, hq, ds, dl, hds, hdl, hdata, hfree, henc⟩ := h
  obtain ⟨H, hHe, hH1, hHlt, _, hH8⟩ := headerWidth_facts mms hm
  have hHl : f.headerBuffer.length = H := by
    rw [hHe] at hH
    exact_mod_cast hH
  have hml : (m.length : Int) ≤ mms := hq m (List.mem_cons_self _ _)
  rw [hdata] at hlen
  simp only [encodeQ, List.length_append, leBytes_length] at hlen
  have hdl' : f.headerBuffer.length + m.length ≤ dl := by omega
  have hhead : (f.buffer.rotate ds).take f.headerBuffer.length =
      leBytes f.headerBuffer.length m.length := by
    have : (f.buffer.rotate ds).take f.headerBuffer.length =
        ((f.buffer.rotate ds).take dl).take f.headerBuffer.length := by
      rw [List.take_take, Nat.min_eq_left (by omega)]
    rw [this, henc]
    simp only [encodeQ, List.append_assoc]
    exact List.take_left' (leBytes_length _ _)
  unfold Pop
  rw [if_neg (by rw [hdata]; simp only []; omega), hdata]
  simp only []
  rw [readCrossBoundary_spec f.buffer f.headerBuffer ds f.headerBuffer.length (by omega)
    (by omega) (Nat.le_refl _)]
  simp only [Outcome.ok_bind]
  rw [hhead, List.drop_length, List.append_nil]
  have hsz : m.length < 256 ^ H := by
    have : (m.length : Int) < 256 ^ H := by omega
    exact_mod_cast this
  rw [getMsgLength_spec _ H m.length (by rw [hHl]) hH1 (hH8 hI) hsz]
  simp only [Outcome.ok_bind, Outcome.pure_eq]
  rw [uintToInt_small m.length (by omega), leBytes_length]

theorem Pop_nil (mms : Int) (C : Nat) (f : FastFifo) (dst : Slice) (h : Inv mms C f []) :
    Pop f dst = .ok (f, dst, 0, some .ErrNoMoreData) := by
  have hlen := (Inv_encode_length mms C f _ h).1
  simp only [encodeQ, List.length_nil] at hlen
  unfold Pop
  rw [if_pos (by omega)]
  rfl

/-- The payload of the oldest record, read cyclically behind its header. -/
theorem payload_read (mms : Int) (C : Nat) (f : FastFifo) (m : List Byte)
    (q : List (List Byte)) (vis : List Byte) (hC : 0 < C) (h : Inv mms C f (m :: q))
    (hd : m.length ≤ vis.length) :
    readCrossBoundary f.buffer (f.data.start + (f.headerBuffer.length : Int))
        (m.length : Int) vis = .ok (m ++ vis.drop m.length, (m.length : Int)) := by
  have hlen := (Inv_encode_length mms C f _ h).1
  obtain ⟨hB, hH, hM, hq, ds, dl, hds, hdl, hdata, hfree, henc⟩ := h
  rw [hdata] at hlen
  simp only [encodeQ, List.length_append, leBytes_length] at hlen
  have hdl' : f.headerBuffer.length + m.length ≤ dl := by omega
  have hsum : (ds : Int) + (f.headerBuffer.length : Int) =
      ((ds + f.headerBuffer.length : Nat) : Int) := by omega
  rw [hdata]
  simp only []
  rw [hsum, readCrossBoundary_spec f.buffer vis _ m.length (by omega) (by omega) hd]
  have hR : (f.buffer.rotate ds).length = f.buffer.length := List.length_rotate _ _
  have e : (f.buffer.rotate (ds + f.headerBuffer.length)).take m.length = m := by
    rw [← List.rotate_rotate, List.rotate_eq_drop_append_take (by omega),
      List.take_append_of_le_length (by rw [List.length_drop]; omega), List.take_drop]
    have : (f.buffer.rotate ds).take (f.headerBuffer.length + m.length) =
        ((f.buffer.rotate ds).take dl).take (f.headerBuffer.length + m.length) := by
      rw [List.take_take, Nat.min_eq_left (by omega)]
    rw [this, henc]
    simp only [encodeQ]
    rw [List.take_left' (by rw [List.length_append, leBytes_length]),
      List.drop_left' (leBytes_length _ _)]
  rw [e]

/-- Removing the oldest record keeps the invariant for the remaining
payloads. -/
theorem Inv_popAdvance (mms : Int) (C : Nat) (f : FastFifo) (m : List Byte)
    (q : List (List Byte)) (hb : List Byte) (hC : 0 < C) (h : Inv mms C f (m :: q))
    (hhb : hb.length = f.headerBuffer.length) :
    Inv mms C (popAdvance { f with headerBuffer := hb }
      ((f.headerBuffer.length : Int) + (m.length : Int))) q := by
  have hlen := (Inv_encode_length mms C f _ h).1
  obtain ⟨hB, hH, hM, hq, ds, dl, hds, hdl, hdata, hfree, henc⟩ := h
  rw [hdata] at hlen
  simp only [encodeQ, List.length_append, leBytes_length] at hlen
  have hdl' : f.headerBuffer.length + m.length ≤ dl := by omega
  have hw := wrap_once ds (f.headerBuffer.length + m.length) C hC (by omega)
  rw [Nat.mod_eq_of_lt hds] at hw
  have hc : ((f.headerBuffer.length + m.length : Nat) : Int) =
      (f.headerBuffer.length : Int) + (m.length : Int) := by push_cast; rfl
  rw [hc] at hw
  refine ⟨hB, ?_, hM, fun m' hm' => hq m' (List.mem_cons_of_mem _ hm'),
    (ds + (f.headerBuffer.length + m.length)) % C, dl - (f.headerBuffer.length + m.length),
    Nat.mod_lt _ hC, by omega, ?_, ?_, ?_⟩
  · simp only [popAdvance]
    rw [hhb]
    exact hH
  · simp only [popAdvance, hdata]
    rw [hB, hw]
    congr 1
    omega
  · simp only [popAdvance, hfree]
    congr 1
    · rw [Nat.mod_add_mod]
      congr 2
      omega
    · omega
  · simp only [popAdvance]
    have e : f.buffer.rotate ((ds + (f.headerBuffer.length + m.length)) % C) =
        f.buffer.rotate (ds + (f.headerBuffer.length + m.length)) := by
      rw [← hB]
      exact List.rotate_mod _ _
    have hR : (f.buffer.rotate ds).length = f.buffer.length := List.length_rotate _ _
    rw [hhb, e, ← List.rotate_rotate, List.rotate_eq_drop_append_take (by omega),
      List.take_append_of_le_length (by rw [List.length_drop]; omega), ← List.drop_take, henc]
    simp only [encodeQ]
    exact List.drop_left' (by rw [List.length_append, leBytes_length])

theorem Inv_headerBuffer (mms : Int) (C : Nat) (f : FastFifo) (q : List (List Byte))
    (hb : List Byte) (h : Inv mms C f q) (hhb : hb.length = f.headerBuffer.length) :
    Inv mms C { f with headerBuffer := hb } q := by
  obtain ⟨hB, hH, hM, hq, ds, dl, hds, hdl, hdata, hfree, henc⟩ := h
  refine ⟨hB, ?_, hM, hq, ds, dl, hds, hdl, hdata, hfree, ?_⟩
  · simp only []
    rw [hhb]
    exact hH
  · simp only []
    rw [hhb]
    exact henc

theorem New_inv (mms cap : Int) (hm : 0 < mms) (hc : 0 < cap) :
    ∃ f, New mms cap = .ok f ∧ Inv mms cap.toNat f [] := by
  obtain ⟨H, hHe, hH1, _, _, _⟩ := headerWidth_facts mms hm
  unfold New makeBytes
  rw [hHe, if_pos (by omega), if_pos (by omega)]
  simp only [Outcome.ok_bind, Outcome.pure_eq]
  refine ⟨_, rfl, ?_, ?_, rfl, ?_, 0, 0, by omega, by omega, rfl, ?_, ?_⟩
  · simp
  · simp only [List.length_replicate, Int.toNat_natCast]
    exact hHe.symm
  · intro m hmem
    cases hmem
  · simp only [Nat.add_zero, Nat.zero_mod]
    congr 1
    omega
  · simp [encodeQ]

theorem specPush_fst (mms : Int) (H C : Nat) (q : List (List Byte)) (m : List Byte) :
    (specPush mms H C q m).1 = if (specPush mms H C q m).2 = none then q ++ [m] else q := by
  unfold specPush
  split
  · simp
  · split <;> simp

/-- Whatever destination `Pop` is given, a call that returns leaves a state
satisfying the invariant, for the pending payloads less the oldest when it
succeeded. -/
theorem Pop_inv_any (mms : Int) (C : Nat) (f f' : FastFifo) (q : List (List Byte))
    (dst dst' : Slice) (n : Int) (e : error) (hm : 0 < mms) (hI : mms ≤ maxInt) (hC : 0 < C)
    (h : Inv mms C f q) (hp : Pop f dst = .ok (f', dst', n, e)) :
    Inv mms C f' (if e = none then q.tail else q) := by
  cases q with
  | nil =>
    rw [Pop_nil mms C f dst h] at hp
    injection hp with hp
    injection hp with h1 h2
    injection h2 with h2 h3
    injection h3 with h3 h4
    subst h1 h4
    simpa using h
  | cons m q =>
    rw [Pop_unfold mms C f m q dst hm hI hC h] at hp
    split at hp
    · injection hp with hp
      injection hp with h1 h2
      injection h2 with h2 h3
      injection h3 with h3 h4
      subst h1 h4
      simp only [reduceCtorEq, if_false]
      exact Inv_headerBuffer mms C f _ _ h (leBytes_length _ _)
    · cases hr : readCrossBoundary f.buffer (f.data.start + (f.headerBuffer.length : Int))
          (m.length : Int) dst.vis with
      | ok r =>
        rw [hr] at hp
        simp only [Outcome.ok_bind] at hp
        injection hp with hp
        injection hp with h1 h2
        injection h2 with h2 h3
        injection h3 with h3 h4
        subst h1 h4
        simp only [if_true, List.tail_cons]
        exact Inv_popAdvance mms C f m q _ hC h (leBytes_length _ _)
      | panic =>
        rw [hr] at hp
        simp only [Outcome.panic_bind] at hp
        cases hp
      | hang =>
        rw [hr] at hp
        simp only [Outcome.hang_bind] at hp
        cases hp

/-- Every reachable state satisfies the invariant for its pending payloads. -/
theorem Reach_inv (mms cap : Int) (f : FastFifo) (q : List (List Byte))
    (h : Reach mms cap f q) :
    Inv mms cap.toNat f q ∧ 0 < mms ∧ mms ≤ maxInt ∧ 0 < cap := by
  induction h with
  | init f hm hI hc h =>
    obtain ⟨f0, h0, hinv⟩ := New_inv mms cap hm hc
    rw [h0] at h
    injection h with h
    subst h
    exact ⟨hinv, hm, hI, hc⟩
  | push f f' q msg e hr h ih =>
    obtain ⟨hinv, hm, hI, hc⟩ := ih
    refine ⟨?_, hm, hI, hc⟩
    obtain ⟨f'', hP, hinv', _⟩ := Push_inv mms cap.toNat f q msg hm (by omega) hinv
    rw [hP] at h
    injection h with h
    injection h with h1 h2
    subst h1
    rw [specPush_fst, h2] at hinv'
    exact hinv'
  | pop f f' q dst dst' n e hr h ih =>
    obtain ⟨hinv, hm, hI, hc⟩ := ih
    exact ⟨Pop_inv_any mms cap.toNat f f' q dst dst' n e hm hI (by omega) hinv h, hm, hI, hc⟩

/-! ## Refinement of the abstract FIFO -/

theorem Pop_inv_roomy (mms : Int) (C : Nat) (f : FastFifo) (q : List (List Byte))
    (dst : Slice) (hm : 0 < mms) (hI : mms ≤ maxInt) (hC : 0 < C)
    (h : Inv mms C f q) (hd : ∀ m, q.head? = some m → (m.length : Int) ≤ dst.len) :
    ∃ f', Pop f dst = .ok (f', (match (specPop q dst).2 with
        | .popped n e d => (d, n, e)
        | .pushed e => (dst, 0, e))) ∧
      Inv mms C f' (specPop q dst).1 ∧ f'.buffer = f.buffer := by
  cases q with
  | nil =>
    exact ⟨f, Pop_nil mms C f dst h, h, rfl⟩
  | cons m q =>
    have hd' : (m.length : Int) ≤ dst.len := hd m rfl
    have hvis : m.length ≤ dst.vis.length := by
      unfold Slice.len at hd'
      exact_mod_cast hd'
    rw [Pop_unfold mms C f m q dst hm hI hC h,
      if_neg (by unfold Slice.cap; unfold Slice.len at hd'; omega),
      payload_read mms C f m q dst.vis hC h hvis]
    simp only [Outcome.ok_bind, specPop]
    exact ⟨_, rfl, Inv_popAdvance mms C f m q _ hC h (leBytes_length _ _), rfl⟩

theorem Inv_headerWidth (mms : Int) (C : Nat) (f : FastFifo) (q : List (List Byte))
    (h : Inv mms C f q) : f.headerBuffer.length = (calcMsgHeaderSize mms).toNat := by
  have := h.2.1
  omega

theorem step_refines (mms : Int) (C : Nat) (f : FastFifo) (q : List (List Byte)) (c : Call)
    (hm : 0 < mms) (hI : mms ≤ maxInt) (hC : 0 < C) (h : Inv mms C f q)
    (hc : c.roomy mms = true) :
    ∃ f', step f c = .ok (f', (specStep mms (calcMsgHeaderSize mms).toNat C q c).2) ∧
      Inv mms C f' (specStep mms (calcMsgHeaderSize mms).toNat C q c).1 := by
  have hH := Inv_headerWidth mms C f q h
  cases c with
  | push msg =>
    obtain ⟨f', hP, hinv, _⟩ := Push_inv mms C f q msg hm hC h
    rw [hH] at hP hinv
    refine ⟨f', ?_, hinv⟩
    simp only [step, hP, Outcome.ok_bind, Outcome.pure_eq, specStep]
  | pop dst =>
    have hroom : mms ≤ dst.len := by simpa [Call.roomy] using hc
    obtain ⟨f', hP, hinv, _⟩ := Pop_inv_roomy mms C f q dst hm hI hC h (by
      intro m hmq
      have hmem : m ∈ q := by
        cases q with
        | nil => cases hmq
        | cons a q =>
          injection hmq with hmq
          subst hmq
          exact List.mem_cons_self _ _
      have := h.2.2.2.1 m hmem
      omega)
    refine ⟨f', ?_, hinv⟩
    simp only [step, hP, Outcome.ok_bind, Outcome.pure_eq, specStep]
    cases q <;> rfl

theorem run_refines (mms : Int) (C : Nat) (hm : 0 < mms) (hI : mms ≤ maxInt) (hC : 0 < C)
    (calls : List Call) :
    ∀ (f : FastFifo) (q : List (List Byte)), Inv mms C f q →
      (∀ c ∈ calls, c.roomy mms = true) →
      ∃ f', run f calls = .ok (f', (specRun mms (calcMsgHeaderSize mms).toNat C q calls).2) ∧
        Inv mms C f' (specRun mms (calcMsgHeaderSize mms).toNat C q calls).1 := by
  induction calls with
  | nil =>
    intro f q h _
    exact ⟨f, rfl, h⟩
  | cons c cs ih =>
    intro f q h hall
    obtain ⟨f1, hs, hinv1⟩ := step_refines mms C f q c hm hI hC h
      (hall c (List.mem_cons_self _ _))
    obtain ⟨f2, hr, hinv2⟩ := ih f1 _ hinv1 (fun c' hc' => hall c' (List.mem_cons_of_mem _ hc'))
    refine ⟨f2, ?_, hinv2⟩
    simp only [run, hs, hr, Outcome.ok_bind, Outcome.pure_eq, specRun]

/-! ## The abstract FIFO returns payloads in the order pushed -/

theorem specRun_append (mms : Int) (H C : Nat) (a b : List Call) :
    ∀ q : List (List Byte),
      specRun mms H C q (a ++ b) =
        ((specRun mms H C (specRun mms H C q a).1 b).1,
          (specRun mms H C q a).2 ++ (specRun mms H C (specRun mms H C q a).1 b).2) := by
  induction a with
  | nil =>
    intro q
    simp [specRun]
  | cons c cs ih =>
    intro q
    simp [specRun, ih]

theorem specRun_length (mms : Int) (H C : Nat) (a : List Call) :
    ∀ q : List (List Byte), (specRun mms H C q a).2.length = a.length := by
  induction a with
  | nil => intro q; rfl
  | cons c cs ih => intro q; simp [specRun, ih]

theorem specRun_pushes (mms : Int) (H C : Nat) (ms : List (List Byte)) :
    ∀ q : List (List Byte),
      (∀ r ∈ (specRun mms H C q (ms.map Call.push)).2, r = Result.pushed none) →
      (specRun mms H C q (ms.map Call.push)).1 = q ++ ms := by
  induction ms with
  | nil => intro q _; simp [specRun]
  | cons m ms ih =>
    intro q hall
    simp only [List.map_cons, specRun, specStep] at hall ⊢
    have h1 := hall _ (List.mem_cons_self _ _)
    injection h1 with h1
    have hq : (specPush mms H C q m).1 = q ++ [m] := by
      rw [specPush_fst, if_pos h1]
    rw [hq] at hall ⊢
    rw [ih (q ++ [m]) (fun r hr => hall r (List.mem_cons_of_mem _ hr))]
    simp

theorem specRun_pops (mms : Int) (H C : Nat) (ms : List (List Byte)) :
    ∀ dsts : List Slice, dsts.length = ms.length →
      (specRun mms H C ms (dsts.map Call.pop)).2 =
        List.zipWith (fun m d => Result.popped (m.length : Int) none
          { d with vis := m ++ d.vis.drop m.length }) ms dsts := by
  induction ms with
  | nil =>
    intro dsts hlen
    cases dsts with
    | nil => rfl
    | cons d ds => simp at hlen
  | cons m ms ih =>
    intro dsts hlen
    cases dsts with
    | nil => simp at hlen
    | cons d ds =>
      simp only [List.length_cons, Nat.add_right_cancel_iff] at hlen
      simp only [List.map_cons, specRun, specStep, specPop, List.zipWith_cons_cons]
      rw [ih ds hlen]

/-! ## The sample states are reachable -/

theorem sampleNew_reach : Reach 255 8 sampleNew [] :=
  Reach.init sampleNew (by decide) (by decide) (by decide) (by decide)

theorem sampleFull_reach : Reach 255 8 sampleFull [[97, 98, 99]] :=
  Reach.push sampleNew sampleFull [] [97, 98, 99] none sampleNew_reach (by decide)

theorem sampleEmpty_reach : Reach 255 8 sampleEmpty [] :=
  Reach.pop sampleFull sampleEmpty [[97, 98, 99]] ⟨[0, 0, 0], []⟩ ⟨[97, 98, 99], []⟩ 3 none
    sampleFull_reach (by decide)

theorem sampleWrapped_reach : Reach 255 8 sampleWrapped [[118, 119, 120, 121, 122]] :=
  Reach.push sampleEmpty sampleWrapped [] [118, 119, 120, 121, 122] none sampleEmpty_reach
    (by decide)

/-! ## Facts about reachable states -/

theorem Inv_empty_iff (mms : Int) (C : Nat) (f : FastFifo) (q : List (List Byte))
    (hm : 0 < mms) (h : Inv mms C f q) : q = [] ↔ f.data.length = 0 := by
  have hlen := (Inv_encode_length mms C f q h).1
  obtain ⟨H, hHe, hH1, _, _, _⟩ := headerWidth_facts mms hm
  have hH := h.2.1
  cases q with
  | nil =>
    simp only [encodeQ, List.length_nil] at hlen
    constructor
    · intro _; omega
    · intro _; rfl
  | cons m q =>
    simp only [encodeQ, List.length_append, leBytes_length] at hlen
    constructor
    · intro h0; cases h0
    · intro h0
      exfalso
      push_cast at hlen
      omega

theorem Reach_conservation (mms cap : Int) (f : FastFifo) (q : List (List Byte))
    (hr : Reach mms cap f q) :
    f.data.length + f.freeSpace.length = (f.buffer.length : Int) ∧
      (f.buffer.length : Int) = cap := by
  obtain ⟨hinv, _, _, hc⟩ := Reach_inv mms cap f q hr
  have h1 := (Inv_encode_length mms cap.toNat f q hinv).2
  have h2 := hinv.1
  constructor <;> omega

/-! ## The claims -/

/-- C1: every finite sequence of `Push` and `Pop` calls on `New(maxMessageSize,
capacity)`, both arguments positive and every `Pop` destination at least
`maxMessageSize` long, returns, call by call, what the abstract FIFO list of
payloads returns: a successful `Push` appends its payload and a successful
`Pop` removes the oldest payload, returns its length and leaves its bytes at
the front of the destination.  In particular, when the calls are pushes of
`m1..mn` that all succeed followed by `n` pops, the pops return `m1..mn` in
that order. -/
theorem fifo_refines_abstract_queue (mms cap : Int) (calls : List Call)
    (hm : 0 < mms) (hI : mms ≤ maxInt) (hc : 0 < cap)
    (hroomy : ∀ c ∈ calls, c.roomy mms = true) :
    ∃ f0 f rs, New mms cap = .ok f0 ∧ run f0 calls = .ok (f, rs) ∧
      rs = (specRun mms (calcMsgHeaderSize mms).toNat cap.toNat [] calls).2 ∧
      ∀ (ms : List (List Byte)) (dsts : List Slice),
        calls = ms.map Call.push ++ dsts.map Call.pop → dsts.length = ms.length →
        (∀ r ∈ rs.take ms.length, r = Result.pushed none) →
        rs.drop ms.length = List.zipWith (fun m d => Result.popped (m.length : Int) none
          { d with vis := m ++ d.vis.drop m.length }) ms dsts := by
  obtain ⟨f0, h0, hinv0⟩ := New_inv mms cap hm hc
  obtain ⟨f, hrun, _⟩ := run_refines mms cap.toNat hm hI (by omega) calls f0 [] hinv0 hroomy
  refine ⟨f0, f, _, h0, hrun, rfl, ?_⟩
  intro ms dsts hcalls hlen hall
  subst hcalls
  have hl : (specRun mms (calcMsgHeaderSize mms).toNat cap.toNat []
      (ms.map Call.push)).2.length = ms.length := by
    rw [specRun_length, List.length_map]
  rw [specRun_append] at hall ⊢
  simp only [] at hall ⊢
  rw [List.take_left' hl] at hall
  rw [List.drop_left' hl, specRun_pushes mms _ _ ms [] hall, List.nil_append,
    specRun_pops mms _ _ ms dsts hlen]

theorem fifo_refines_abstract_queue_witness :
    ∃ f0 f, New 3 8 = .ok f0 ∧
      run f0 [Call.push [1, 2], Call.push [3], Call.pop ⟨[0, 0, 0], []⟩,
          Call.pop ⟨[0, 0, 0], [0]⟩] =
        .ok (f, [Result.pushed none, Result.pushed none,
          Result.popped 2 none ⟨[1, 2, 0], []⟩, Result.popped 1 none ⟨[3, 0, 0], [0]⟩]) := by
  obtain ⟨f0, f, rs, h0, hrun, hrs, _⟩ := fifo_refines_abstract_queue 3 8
    [Call.push [1, 2], Call.push [3], Call.pop ⟨[0, 0, 0], []⟩, Call.pop ⟨[0, 0, 0], [0]⟩]
    (by decide) (by decide) (by decide) (by decide)
  have e : (specRun 3 (calcMsgHeaderSize 3).toNat (Int.toNat 8) []
      [Call.push [1, 2], Call.push [3], Call.pop ⟨[0, 0, 0], []⟩,
        Call.pop ⟨[0, 0, 0], [0]⟩]).2 =
      [Result.pushed none, Result.pushed none,
        Result.popped 2 none ⟨[1, 2, 0], []⟩, Result.popped 1 none ⟨[3, 0, 0], [0]⟩] := by
    decide
  refine ⟨f0, f, h0, ?_⟩
  rw [hrun, hrs, e]

/-- C2: from every empty reachable state, whatever its ring offset, a payload
`m` with `len(m) <= maxMessageSize` and `H + len(m) <= capacity` is pushed
successfully, and the `Pop` that follows, into a destination of length at
least `len(m)`, succeeds, reports `len(m)`, leaves `m` in the first `len(m)`
bytes of the destination and leaves the queue empty. -/
theorem push_pop_round_trip (mms cap : Int) (f : FastFifo) (q : List (List Byte))
    (m : List Byte) (dst : Slice) (hr : Reach mms cap f q) (hempty : f.data.length = 0)
    (hlen : (m.length : Int) ≤ mms)
    (hfit : (f.headerBuffer.length : Int) + (m.length : Int) ≤ cap)
    (hdst : (m.length : Int) ≤ dst.len) :
    ∃ f1 f2 dst', Push f m = .ok (f1, none) ∧
      Pop f1 dst = .ok (f2, dst', (m.length : Int), none) ∧
      dst'.vis.take m.length = m ∧ dst'.len = dst.len ∧ dst'.hidden = dst.hidden ∧
      f2.data.length = 0 ∧ Reach mms cap f2 [] := by
  obtain ⟨hinv, hm, hI, hc⟩ := Reach_inv mms cap f q hr
  have hq : q = [] := (Inv_empty_iff mms cap.toNat f q hm hinv).2 hempty
  subst hq
  obtain ⟨f1, hP, hinv1, _⟩ := Push_inv mms cap.toNat f [] m hm (by omega) hinv
  have hspec : specPush mms f.headerBuffer.length cap.toNat [] m = ([m], none) := by
    unfold specPush
    rw [if_neg (by omega), if_neg (by simp only [encodeQ, List.length_nil]; omega)]
    rfl
  rw [hspec] at hP hinv1
  obtain ⟨f2, hPop, hinv2, _⟩ := Pop_inv_roomy mms cap.toNat f1 [m] dst hm hI (by omega) hinv1
    (by
      intro m' hm'
      injection hm' with hm'
      subst hm'
      exact hdst)
  simp only [specPop] at hPop hinv2
  have hr1 : Reach mms cap f1 [m] := by
    have := Reach.push f f1 [] m none hr hP
    simpa using this
  have hr2 : Reach mms cap f2 [] := by
    have := Reach.pop f1 f2 [m] dst _ _ none hr1 hPop
    simpa using this
  have hd : m.length ≤ dst.vis.length := by
    unfold Slice.len at hdst
    exact_mod_cast hdst
  refine ⟨f1, f2, _, hP, hPop, List.take_left' rfl, ?_, rfl,
    (Inv_empty_iff mms cap.toNat f2 [] hm hinv2).1 rfl, hr2⟩
  unfold Slice.len
  simp only [List.length_append, List.length_drop]
  omega

theorem push_pop_round_trip_witness :
    ∃ f1 f2 dst', Push sampleEmpty [118, 119, 120, 121, 122] = .ok (f1, none) ∧
      Pop f1 ⟨[0, 0, 0, 0, 0, 0], []⟩ = .ok (f2, dst', 5, none) ∧
      dst'.vis.take 5 = [118, 119, 120, 121, 122] ∧ dst'.len = 6 ∧ dst'.hidden = [] ∧
      f2.data.length = 0 ∧ Reach 255 8 f2 [] :=
  push_pop_round_trip 255 8 sampleEmpty [] [118, 119, 120, 121, 122] ⟨[0, 0, 0, 0, 0, 0], []⟩
    sampleEmpty_reach (by decide) (by decide) (by decide) (by decide)

/-- In a reachable state whose oldest pending payload is `m`, a `Pop` into a
destination of capacity below `len(m)` fails with `ErrBufferTooSmall` and
count 0, leaving the destination, the occupied range, the free range and the
backing buffer as they were; the `Pop` issued right after it returns `m`
when its destination has length, and not only capacity, at least `len(m)`. -/
theorem pop_buffer_too_small_keeps_record (mms cap : Int) (f : FastFifo) (m : List Byte)
    (q : List (List Byte)) (dst dst2 : Slice) (hr : Reach mms cap f (m :: q))
    (hsmall : dst.cap < (m.length : Int)) (hbig : (m.length : Int) ≤ dst2.len) :
    ∃ f1 f2 dst2', Pop f dst = .ok (f1, dst, 0, some .ErrBufferTooSmall) ∧
      f1.data = f.data ∧ f1.freeSpace = f.freeSpace ∧ f1.buffer = f.buffer ∧
      Pop f1 dst2 = .ok (f2, dst2', (m.length : Int), none) ∧
      dst2'.vis.take m.length = m ∧ Reach mms cap f2 q := by
  obtain ⟨hinv, hm, hI, hc⟩ := Reach_inv mms cap f (m :: q) hr
  have hP := Pop_unfold mms cap.toNat f m q dst hm hI (by omega) hinv
  rw [if_pos hsmall] at hP
  have hr1 : Reach mms cap { f with headerBuffer := leBytes f.headerBuffer.length m.length }
      (m :: q) := by
    have := Reach.pop f _ (m :: q) dst _ _ _ hr hP
    simpa using this
  have hinv1 := (Reach_inv mms cap _ _ hr1).1
  obtain ⟨f2, hPop, _, _⟩ := Pop_inv_roomy mms cap.toNat _ (m :: q) dst2 hm hI (by omega) hinv1
    (by
      intro m' hm'
      injection hm' with hm'
      subst hm'
      exact hbig)
  simp only [specPop] at hPop
  have hr2 : Reach mms cap f2 q := by
    have := Reach.pop _ f2 (m :: q) dst2 _ _ none hr1 hPop
    simpa using this
  exact ⟨_, f2, _, hP, rfl, rfl, rfl, hPop, List.take_left' rfl, hr2⟩

theorem pop_buffer_too_small_keeps_record_witness :
    ∃ f1 f2 dst2', Pop sampleWrapped ⟨[0, 0], [0, 0]⟩ =
        .ok (f1, ⟨[0, 0], [0, 0]⟩, 0, some .ErrBufferTooSmall) ∧
      f1.data = sampleWrapped.data ∧ f1.freeSpace = sampleWrapped.freeSpace ∧
      f1.buffer = sampleWrapped.buffer ∧
      Pop f1 ⟨[0, 0, 0, 0, 0], []⟩ = .ok (f2, dst2', 5, none) ∧
      dst2'.vis.take 5 = [118, 119, 120, 121, 122] ∧ Reach 255 8 f2 [] :=
  pop_buffer_too_small_keeps_record 255 8 sampleWrapped [118, 119, 120, 121, 122] []
    ⟨[0, 0], [0, 0]⟩ ⟨[0, 0, 0, 0, 0], []⟩ sampleWrapped_reach (by decide) (by decide)

/-- C3 (the code departs from the claim): in the reachable state
`sampleWrapped` the oldest payload is the five bytes `vwxyz`.  `Pop` into a
destination of capacity 4 fails with `ErrBufferTooSmall` and count 0 and
leaves both ranges and the backing buffer as they were.  The `Pop` issued
right after it into a destination of adequate capacity 5 does not return
that record: with length 0 it panics, and with length 3 it returns count 5
with only `vwx` copied, the bytes up to the capacity otherwise untouched,
and removes the record. -/
theorem pop_retry_by_capacity_loses_record :
    Reach 255 8 sampleWrapped [[118, 119, 120, 121, 122]] ∧
      (⟨[0, 0], [0, 0]⟩ : Slice).cap = 4 ∧
      Pop sampleWrapped ⟨[0, 0], [0, 0]⟩ =
        .ok (sampleRefused, ⟨[0, 0], [0, 0]⟩, 0, some .ErrBufferTooSmall) ∧
      sampleRefused.data = sampleWrapped.data ∧
      sampleRefused.freeSpace = sampleWrapped.freeSpace ∧
      sampleRefused.buffer = sampleWrapped.buffer ∧
      (⟨[], [0, 0, 0, 0, 0]⟩ : Slice).cap = 5 ∧
      Pop sampleRefused ⟨[], [0, 0, 0, 0, 0]⟩ = .panic ∧
      (⟨[0, 0, 0], [0, 0]⟩ : Slice).cap = 5 ∧
      Pop sampleRefused ⟨[0, 0, 0], [0, 0]⟩ =
        .ok (sampleDrained, ⟨[118, 119, 120], [0, 0]⟩, 5, none) ∧
      (⟨[118, 119, 120], [0, 0]⟩ : Slice).backing.take 5 ≠ [118, 119, 120, 121, 122] ∧
      sampleDrained.data.length = 0 :=
  ⟨sampleWrapped_reach, by decide, by decide, by decide, by decide, by decide, by decide,
    by decide, by decide, by decide, by decide, by decide⟩

/-- C4 (the code departs from the claim): in the reachable state `sampleFull`
the oldest payload is the three bytes `abc`; `Pop` into a destination of
length 0 and capacity 3 does not fail and returns count 3, yet no byte of the
destination, up to its capacity, has changed. -/
theorem pop_by_capacity_copies_nothing :
    Reach 255 8 sampleFull [[97, 98, 99]] ∧
      (⟨[], [0, 0, 0]⟩ : Slice).cap = 3 ∧
      Pop sampleFull ⟨[], [0, 0, 0]⟩ = .ok (sampleEmpty, ⟨[], [0, 0, 0]⟩, 3, none) ∧
      (⟨[], [0, 0, 0]⟩ : Slice).backing.take 3 ≠ [97, 98, 99] :=
  ⟨sampleFull_reach, by decide, by decide, by decide⟩

/-- C5: in every reachable state and for every payload, `Push` returns
`ErrMessageTooLong` exactly when `len(payload) > maxMessageSize`; otherwise it
returns `ErrNoSpaceLeft` exactly when `H + len(payload) > freeSpace.length`;
otherwise it succeeds.  When it fails the whole state, with the backing
buffer and both ranges, is unchanged. -/
theorem push_error_cases (mms cap : Int) (f : FastFifo) (q : List (List Byte)) (m : List Byte)
    (hr : Reach mms cap f q) :
    ∃ f' e, Push f m = .ok (f', e) ∧ f.maxMessageSize = mms ∧
      (e = some .ErrMessageTooLong ↔ (m.length : Int) > f.maxMessageSize) ∧
      (¬ (m.length : Int) > f.maxMessageSize →
        (e = some .ErrNoSpaceLeft ↔
          (f.headerBuffer.length : Int) + (m.length : Int) > f.freeSpace.length)) ∧
      (¬ (m.length : Int) > f.maxMessageSize →
        ¬ (f.headerBuffer.length : Int) + (m.length : Int) > f.freeSpace.length → e = none) ∧
      (e ≠ none → f' = f) := by
  obtain ⟨hinv, hm, hI, hc⟩ := Reach_inv mms cap f q hr
  obtain ⟨f', hP, _, hsame⟩ := Push_inv mms cap.toNat f q m hm (by omega) hinv
  obtain ⟨h1, h2⟩ := Inv_encode_length mms cap.toNat f q hinv
  have hM : f.maxMessageSize = mms := hinv.2.2.1
  have hnn : 0 ≤ f.freeSpace.length := by
    obtain ⟨_, _, _, _, ds, dl, _, hdl, _, hfr, _⟩ := hinv
    rw [hfr]
    simp only []
    omega
  have hfree : (f.headerBuffer.length + m.length >
      cap.toNat - (encodeQ f.headerBuffer.length q).length) ↔
      ((f.headerBuffer.length : Int) + (m.length : Int) > f.freeSpace.length) := by
    constructor <;> intro h <;> omega
  refine ⟨f', _, hP, hM, ?_, ?_, ?_, hsame⟩
  · unfold specPush
    rw [hM]
    by_cases c1 : (m.length : Int) > mms
    · rw [if_pos c1]
      exact ⟨fun _ => c1, fun _ => rfl⟩
    · rw [if_neg c1]
      constructor
      · intro h
        split at h <;> cases h
      · intro h
        exact absurd h c1
  · intro c1
    rw [hM] at c1
    unfold specPush
    rw [if_neg c1, ← hfree]
    constructor
    · intro h
      split at h
      · assumption
      · cases h
    · intro h
      rw [if_pos h]
  · intro c1 c2
    rw [hM] at c1
    rw [← hfree] at c2
    unfold specPush
    rw [if_neg c1, if_neg c2]

theorem push_error_cases_witness :
    ∃ f' e, Push sampleWrapped [1, 2] = .ok (f', e) ∧ sampleWrapped.maxMessageSize = 255 ∧
      (e = some .ErrMessageTooLong ↔
        (([1, 2] : List Byte).length : Int) > sampleWrapped.maxMessageSize) ∧
      (¬ (([1, 2] : List Byte).length : Int) > sampleWrapped.maxMessageSize →
        (e = some .ErrNoSpaceLeft ↔
          (sampleWrapped.headerBuffer.length : Int) + (([1, 2] : List Byte).length : Int) >
            sampleWrapped.freeSpace.length)) ∧
      (¬ (([1, 2] : List Byte).length : Int) > sampleWrapped.maxMessageSize →
        ¬ (sampleWrapped.headerBuffer.length : Int) + (([1, 2] : List Byte).length : Int) >
            sampleWrapped.freeSpace.length → e = none) ∧
      (e ≠ none → f' = sampleWrapped) :=
  push_error_cases 255 8 sampleWrapped [[118, 119, 120, 121, 122]] [1, 2] sampleWrapped_reach

/-- C6: in every reachable state, no pending payload remains exactly when
`data.length == 0`; then `Pop` returns `ErrNoMoreData` with count 0 and the
state and the destination unchanged; and when `data.length != 0` no `Pop`
returns `ErrNoMoreData`. -/
theorem pop_no_more_data_iff_empty (mms cap : Int) (f : FastFifo) (q : List (List Byte))
    (dst : Slice) (hr : Reach mms cap f q) :
    (q = [] ↔ f.data.length = 0) ∧
      (f.data.length = 0 → Pop f dst = .ok (f, dst, 0, some .ErrNoMoreData)) ∧
      (f.data.length ≠ 0 → ∀ f' dst' n,
        Pop f dst ≠ .ok (f', dst', n, some .ErrNoMoreData)) := by
  obtain ⟨hinv, hm, hI, hc⟩ := Reach_inv mms cap f q hr
  have hiff := Inv_empty_iff mms cap.toNat f q hm hinv
  refine ⟨hiff, ?_, ?_⟩
  · intro h0
    have hq := hiff.2 h0
    subst hq
    exact Pop_nil mms cap.toNat f dst hinv
  · intro hne f' dst' n hP
    cases q with
    | nil => exact hne (hiff.1 rfl)
    | cons m q =>
      rw [Pop_unfold mms cap.toNat f m q dst hm hI (by omega) hinv] at hP
      split at hP
      · injection hP with hP
        injection hP with _ hP
        injection hP with _ hP
        injection hP with _ hP
        cases hP
      · cases hread : readCrossBoundary f.buffer (f.data.start + (f.headerBuffer.length : Int))
            (m.length : Int) dst.vis with
        | ok r =>
          rw [hread] at hP
          simp only [Outcome.ok_bind] at hP
          injection hP with hP
          injection hP with _ hP
          injection hP with _ hP
          injection hP with _ hP
          cases hP
        | panic =>
          rw [hread] at hP
          cases hP
        | hang =>
          rw [hread] at hP
          cases hP

theorem pop_no_more_data_iff_empty_witness :
    (([] : List (List Byte)) = [] ↔ sampleEmpty.data.length = 0) ∧
      (sampleEmpty.data.length = 0 →
        Pop sampleEmpty ⟨[7], []⟩ = .ok (sampleEmpty, ⟨[7], []⟩, 0, some .ErrNoMoreData)) ∧
      (sampleEmpty.data.length ≠ 0 → ∀ f' dst' n,
        Pop sampleEmpty ⟨[7], []⟩ ≠ .ok (f', dst', n, some .ErrNoMoreData)) :=
  pop_no_more_data_iff_empty 255 8 sampleEmpty [] ⟨[7], []⟩ sampleEmpty_reach

/-- C7 (the code departs from the claim): in the reachable state
`sampleWrapped` the oldest payload `vwxyz` runs over the end of the ring;
`Pop` into a destination of length 0 and capacity 5 passes the capacity check
and then panics on the slice expression `dst[untilBoundary:]`. -/
theorem pop_by_capacity_panics :
    Reach 255 8 sampleWrapped [[118, 119, 120, 121, 122]] ∧
      (⟨[], [0, 0, 0, 0, 0]⟩ : Slice).cap = 5 ∧
      Pop sampleWrapped ⟨[], [0, 0, 0, 0, 0]⟩ = .panic ∧
      sliceFrom (copy [] [118, 119, 120]).1 3 = .panic :=
  ⟨sampleWrapped_reach, by decide, by decide, by decide⟩

/-- C8: `data.length + freeSpace.length == len(buffer) == capacity` holds in
every reachable state, the queue returned by `New` among them, and in the
state left by every `Push` and every `Pop` from there, whatever the call
returns. -/
theorem capacity_conservation (mms cap : Int) (f : FastFifo) (q : List (List Byte))
    (hr : Reach mms cap f q) :
    (f.data.length + f.freeSpace.length = (f.buffer.length : Int) ∧
        (f.buffer.length : Int) = cap) ∧
      (∀ msg f' e, Push f msg = .ok (f', e) →
        f'.data.length + f'.freeSpace.length = (f'.buffer.length : Int) ∧
          (f'.buffer.length : Int) = cap) ∧
      (∀ dst f' dst' n e, Pop f dst = .ok (f', dst', n, e) →
        f'.data.length + f'.freeSpace.length = (f'.buffer.length : Int) ∧
          (f'.buffer.length : Int) = cap) :=
  ⟨Reach_conservation mms cap f q hr,
    fun msg f' e h => Reach_conservation mms cap f' _ (Reach.push f f' q msg e hr h),
    fun dst f' dst' n e h => Reach_conservation mms cap f' _ (Reach.pop f f' q dst dst' n e hr h)⟩

theorem capacity_conservation_witness :
    (sampleWrapped.data.length + sampleWrapped.freeSpace.length =
          (sampleWrapped.buffer.length : Int) ∧
        (sampleWrapped.buffer.length : Int) = 8) ∧
      (∀ msg f' e, Push sampleWrapped msg = .ok (f', e) →
        f'.data.length + f'.freeSpace.length = (f'.buffer.length : Int) ∧
          (f'.buffer.length : Int) = 8) ∧
      (∀ dst f' dst' n e, Pop sampleWrapped dst = .ok (f', dst', n, e) →
        f'.data.length + f'.freeSpace.length = (f'.buffer.length : Int) ∧
          (f'.buffer.length : Int) = 8) :=
  capacity_conservation 255 8 sampleWrapped [[118, 119, 120, 121, 122]] sampleWrapped_reach

/-- C9: for every `maxMessageSize >= 1`, `calcMsgHeaderSize(maxMessageSize)` is
the least `W` with `maxMessageSize < 256^W`, so that
`256^(W-1) <= maxMessageSize < 256^W`; and it maps 255 to 1, 256 to 2, 65535
to 2 and 65536 to 3. -/
theorem calcMsgHeaderSize_minimal_width (m : Int) (hm : 1 ≤ m) :
    (∃ W : Nat, calcMsgHeaderSize m = (W : Int) ∧ 1 ≤ W ∧
        (256 : Int) ^ (W - 1) ≤ m ∧ m < (256 : Int) ^ W ∧
        ∀ W' : Nat, m < (256 : Int) ^ W' → W ≤ W') ∧
      calcMsgHeaderSize 255 = 1 ∧ calcMsgHeaderSize 256 = 2 ∧
      calcMsgHeaderSize 65535 = 2 ∧ calcMsgHeaderSize 65536 = 3 := by
  refine ⟨?_, by decide, by decide, by decide, by decide⟩
  obtain ⟨W, hW, h1, hlt, hle, _⟩ := headerWidth_facts m (by omega)
  refine ⟨W, hW, h1, hle, hlt, ?_⟩
  intro W' hW'
  by_contra hcon
  have h2 : W' ≤ W - 1 := by omega
  have h3 : (256 : Int) ^ W' ≤ (256 : Int) ^ (W - 1) :=
    pow_le_pow_right₀ (by norm_num) h2
  omega

theorem calcMsgHeaderSize_minimal_width_witness :
    (1 : Int) ≤ 70000 ∧
      ((∃ W : Nat, calcMsgHeaderSize 70000 = (W : Int) ∧ 1 ≤ W ∧
          (256 : Int) ^ (W - 1) ≤ 70000 ∧ 70000 < (256 : Int) ^ W ∧
          ∀ W' : Nat, (70000 : Int) < (256 : Int) ^ W' → W ≤ W') ∧
        calcMsgHeaderSize 255 = 1 ∧ calcMsgHeaderSize 256 = 2 ∧
        calcMsgHeaderSize 65535 = 2 ∧ calcMsgHeaderSize 65536 = 3) :=
  ⟨by decide, calcMsgHeaderSize_minimal_width 70000 (by decide)⟩

/-- C10 (the code departs from the claim): `calcMsgHeaderSize(0)` is 0, so
`New(0, 8)` allocates an empty header scratch buffer; on that queue `Push` of
the empty payload succeeds without occupying a byte, and the `Pop` that
follows reports `ErrNoMoreData`. -/
theorem calcMsgHeaderSize_zero_is_zero :
    calcMsgHeaderSize 0 = 0 ∧ New 0 8 = .ok sampleZero ∧ sampleZero.headerBuffer.length = 0 ∧
      Push sampleZero [] = .ok (sampleZero, none) ∧
      Pop sampleZero ⟨[], []⟩ = .ok (sampleZero, ⟨[], []⟩, 0, some .ErrNoMoreData) :=
  ⟨by decide, by decide, by decide, by decide, by decide⟩

/-! ## Cyclic writes byte by byte -/

theorem back_index (j s C : Nat) (hj : j < C) :
    ((j + C - s % C) % C + s) % C = j := by
  have hC : 0 < C := by omega
  have ha : s % C < C := Nat.mod_lt _ hC
  rw [← Nat.add_mod_mod, Nat.mod_add_mod]
  have e : j + C - s % C + s % C = j + C := by omega
  rw [e, Nat.add_mod_right, Nat.mod_eq_of_lt hj]

theorem fwd_index (s i C : Nat) (hi : i < C) :
    ((s + i) % C + C - s % C) % C = i := by
  have hC : 0 < C := by omega
  have ha : s % C < C := Nat.mod_lt _ hC
  have e : (s + i) % C = (s % C + i) % C := (Nat.mod_add_mod s C i).symm
  rw [e]
  by_cases h : s % C + i < C
  · rw [Nat.mod_eq_of_lt h]
    have e2 : s % C + i + C - s % C = i + C := by omega
    rw [e2, Nat.add_mod_right, Nat.mod_eq_of_lt hi]
  · have e3 : (s % C + i) % C = s % C + i - C := by
      rw [Nat.mod_eq_sub_mod (by omega), Nat.mod_eq_of_lt (by omega)]
    rw [e3]
    have e2 : s % C + i - C + C - s % C = i := by omega
    rw [e2, Nat.mod_eq_of_lt hi]

theorem cyclicPut_length (ring src : List Byte) (s : Nat) :
    (cyclicPut ring s src).length = ring.length := by
  simp [cyclicPut]

theorem cyclicPut_mod (ring src : List Byte) (s : Nat) :
    cyclicPut ring (s % ring.length) src = cyclicPut ring s src := by
  unfold cyclicPut
  rw [Nat.mod_mod]

theorem cyclicPut_getElem? (ring src : List Byte) (s j : Nat) (hj : j < ring.length) :
    (cyclicPut ring s src)[j]? =
      some ((src[(j + ring.length - s % ring.length) % ring.length]?).getD (ring.getD j 0)) := by
  unfold cyclicPut
  rw [List.getElem?_map, List.getElem?_range hj]
  rfl

/-- A cyclic write is the byte-by-byte write of the specification. -/
theorem cyclicWrite_eq_put (b src w : List Byte) (s : Nat) (h : CyclicWrite b s src w) :
    w = cyclicPut b s src := by
  obtain ⟨hl, hr⟩ := h
  apply List.ext_getElem?
  intro j
  by_cases hj : j < b.length
  · rw [cyclicPut_getElem? b src s j hj]
    have hC : 0 < b.length := by omega
    have hk : (j + b.length - s % b.length) % b.length < b.length := Nat.mod_lt _ hC
    have hb := back_index j s b.length hj
    generalize (j + b.length - s % b.length) % b.length = k at hk hb
    have e1 : w[j]? = (w.rotate s)[k]? := by
      rw [List.getElem?_rotate (by omega), hl, hb]
    rw [e1, hr, List.getElem?_append]
    by_cases hks : k < src.length
    · rw [if_pos hks, List.getElem?_eq_getElem hks]
      rfl
    · rw [if_neg hks, List.getElem?_drop, List.getElem?_eq_none (by omega : src.length ≤ k)]
      have e2 : src.length + (k - src.length) = k := by omega
      rw [e2, List.getElem?_rotate hk, hb, List.getElem?_eq_getElem hj,
        List.getD_eq_getElem?_getD, List.getElem?_eq_getElem hj]
      rfl
  · rw [List.getElem?_eq_none (by omega), List.getElem?_eq_none (by rw [cyclicPut_length]; omega)]

/-- The byte-by-byte write of the specification is a cyclic write. -/
theorem cyclicWrite_put (b src : List Byte) (s : Nat) (hC : 0 < b.length)
    (hsrc : src.length ≤ b.length) : CyclicWrite b s src (cyclicPut b s src) := by
  obtain ⟨w, _, hw⟩ := writeCrossBoundary_spec src b s hC hsrc
  rw [← cyclicWrite_eq_put b src w s hw]
  exact hw

theorem cyclicPut_written (ring src : List Byte) (s i : Nat) (hi : i < src.length)
    (hsrc : src.length ≤ ring.length) :
    (cyclicPut ring s src)[(s + i) % ring.length]? = src[i]? := by
  have hC : 0 < ring.length := by omega
  rw [cyclicPut_getElem? ring src s _ (Nat.mod_lt _ hC), fwd_index s i ring.length (by omega),
    List.getElem?_eq_getElem hi]
  rfl

theorem cyclicPut_other (ring src : List Byte) (s j : Nat)
    (hj : ∀ i, i < src.length → (s + i) % ring.length ≠ j) :
    (cyclicPut ring s src)[j]? = ring[j]? := by
  by_cases hlt : j < ring.length
  · rw [cyclicPut_getElem? ring src s j hlt]
    have hb := back_index j s ring.length hlt
    generalize (j + ring.length - s % ring.length) % ring.length = k at hb
    have hk : src.length ≤ k := by
      by_contra hcon
      exact hj k (by omega) (by rw [Nat.add_comm]; exact hb)
    rw [List.getElem?_eq_none hk, List.getD_eq_getElem?_getD, List.getElem?_eq_getElem hlt]
    rfl
  · rw [List.getElem?_eq_none (by rw [cyclicPut_length]; omega), List.getElem?_eq_none (by omega)]

/-! ## Reading the occupied bytes back as records -/

theorem leBytes_succ (H n : Nat) : leBytes (H + 1) n = toByte n :: leBytes H (n / 256) := by
  unfold leBytes
  rw [List.range_succ_eq_map, List.map_cons, List.map_map]
  congr 1
  apply List.map_congr_left
  intro i _
  have e : (i + 1) * 8 = 8 + i * 8 := by omega
  simp only [Function.comp, Nat.succ_eq_add_one]
  rw [e, Nat.shiftRight_add, Nat.shiftRight_eq_div_pow n 8]

theorem leValue_leBytes (H : Nat) : ∀ n : Nat, leValue (leBytes H n) = n % 256 ^ H := by
  induction H with
  | zero =>
    intro n
    simp [leBytes, leValue, Nat.mod_one]
  | succ H ih =>
    intro n
    rw [leBytes_succ, leValue, ih, pow_succ, Nat.mul_comm (256 ^ H) 256, Nat.mod_mul]
    rfl

theorem encodeQ_length_ge (H : Nat) (hH : 1 ≤ H) (q : List (List Byte)) :
    q.length ≤ (encodeQ H q).length := by
  induction q with
  | nil => simp [encodeQ]
  | cons m q ih =>
    simp only [encodeQ, List.length_append, List.length_cons, leBytes_length]
    omega

theorem encodeQ_length_sum (H : Nat) (q : List (List Byte)) :
    (encodeQ H q).length = (q.map (fun m => H + m.length)).sum := by
  induction q with
  | nil => simp [encodeQ]
  | cons m q ih =>
    simp only [encodeQ, List.length_append, leBytes_length, List.map_cons, List.sum_cons, ih]

theorem parseRecords_encodeQ (H : Nat) (hH : 1 ≤ H) (q : List (List Byte)) :
    ∀ fuel : Nat, q.length ≤ fuel → (∀ m ∈ q, m.length < 256 ^ H) →
      parseRecords H fuel (encodeQ H q) = some q := by
  induction q with
  | nil =>
    intro fuel _ _
    cases fuel <;> simp [parseRecords, encodeQ]
  | cons m q ih =>
    intro fuel hfuel hall
    cases fuel with
    | zero => simp at hfuel
    | succ fuel =>
      have hne : encodeQ H (m :: q) ≠ [] := by
        intro h
        have := congrArg List.length h
        simp only [encodeQ, List.length_append, leBytes_length, List.length_nil] at this
        omega
      have htake : (encodeQ H (m :: q)).take H = leBytes H m.length := by
        simp only [encodeQ, List.append_assoc]
        exact List.take_left' (leBytes_length _ _)
      have hval : leValue (leBytes H m.length) = m.length := by
        rw [leValue_leBytes, Nat.mod_eq_of_lt (hall m (List.mem_cons_self _ _))]
      have hdrop : (encodeQ H (m :: q)).drop (H + m.length) = encodeQ H q := by
        simp only [encodeQ]
        exact List.drop_left' (by rw [List.length_append, leBytes_length])
      have hpay : ((encodeQ H (m :: q)).drop H).take m.length = m := by
        simp only [encodeQ, List.append_assoc]
        rw [List.drop_left' (leBytes_length _ _)]
        exact List.take_left' rfl
      have hlen : H + m.length ≤ (encodeQ H (m :: q)).length := by
        simp only [encodeQ, List.length_append, leBytes_length]
        omega
      rw [parseRecords, if_neg hne, htake, hval, if_pos hlen, hdrop, hpay,
        ih fuel (by simpa using hfuel) (fun m' hm' => hall m' (List.mem_cons_of_mem _ hm'))]
      rfl

/-! ## Reachability along a run -/

theorem Reach_step (mms cap : Int) (f f' : FastFifo) (q : List (List Byte)) (c : Call)
    (r : Result) (hr : Reach mms cap f q) (hs : step f c = .ok (f', r)) :
    Reach mms cap f' (pendingStep q c r) := by
  cases c with
  | push m =>
    cases hP : Push f m with
    | ok x =>
      obtain ⟨f1, e⟩ := x
      simp only [step, hP, Outcome.ok_bind, Outcome.pure_eq] at hs
      injection hs with hs
      injection hs with h1 h2
      subst h1 h2
      have := Reach.push f f1 q m e hr hP
      cases e <;> simpa [pendingStep] using this
    | panic => simp [step, hP] at hs
    | hang => simp [step, hP] at hs
  | pop dst =>
    cases hP : Pop f dst with
    | ok x =>
      obtain ⟨f1, d1, n, e⟩ := x
      simp only [step, hP, Outcome.ok_bind, Outcome.pure_eq] at hs
      injection hs with hs
      injection hs with h1 h2
      subst h1 h2
      have := Reach.pop f f1 q dst d1 n e hr hP
      cases e <;> simpa [pendingStep] using this
    | panic => simp [step, hP] at hs
    | hang => simp [step, hP] at hs

theorem Reach_run (mms cap : Int) (calls : List Call) :
    ∀ (f f' : FastFifo) (q : List (List Byte)) (rs : List Result),
      Reach mms cap f q → run f calls = .ok (f', rs) →
      Reach mms cap f' (pendingAfter q calls rs) := by
  induction calls with
  | nil =>
    intro f f' q rs hr h
    simp only [run, Outcome.pure_eq] at h
    injection h with h
    injection h with h1 h2
    subst h1 h2
    exact hr
  | cons c cs ih =>
    intro f f' q rs hr h
    cases hs : step f c with
    | ok x =>
      obtain ⟨f1, r⟩ := x
      cases hrest : run f1 cs with
      | ok y =>
        obtain ⟨f2, rs2⟩ := y
        simp only [run, hs, hrest, Outcome.ok_bind, Outcome.pure_eq] at h
        injection h with h
        injection h with h1 h2
        subst h1 h2
        exact ih f1 f2 _ rs2 (Reach_step mms cap f f1 q c r hr hs) hrest
      | panic => simp [run, hs, hrest] at h
      | hang => simp [run, hs, hrest] at h
    | panic => simp [run, hs] at h
    | hang => simp [run, hs] at h

set_option maxRecDepth 2000

theorem traceNew_reach : Reach 260 13 traceNew [] :=
  Reach.init traceNew (by decide) (by decide) (by decide) (by decide)

theorem traceBefore_reach : Reach 260 13 traceBefore [ascii "1234"] := by
  have h := Reach_run 260 13 traceCallsBefore traceNew traceBefore [] traceResultsBefore
    traceNew_reach (by decide)
  have e : pendingAfter [] traceCallsBefore traceResultsBefore = [ascii "1234"] := by decide
  rw [e] at h
  exact h

theorem sampleBlank_reach : Reach 255 8 sampleBlank [[]] :=
  Reach.push sampleEmpty sampleBlank [] [] none sampleEmpty_reach (by decide)

/-- C11: the calls of `TestFastFifo` on `New(260, 13)` return, in order:
`ErrNoMoreData`; ok; `ErrBufferTooSmall` for the 10-byte buffer;
`"0123456789A"`; `ErrNoSpaceLeft`; `ErrMessageTooLong` for 261 bytes; ok; ok;
`ErrNoSpaceLeft`; `"abcd"`; ok for `"abcde"`, written from offset 12 with its
header bytes 5 and 0 at ring offsets 12 and 0; `ErrNoSpaceLeft`; `"1234"`;
`"abcde"`; ok; `"0123456789A"`. -/
theorem test_trace :
    New 260 13 = .ok traceNew ∧
      run traceNew traceCallsBefore = .ok (traceBefore, traceResultsBefore) ∧
      traceResultsBefore.map Result.bytes =
        [[], [], [], ascii "0123456789A", [], [], [], [], [], ascii "abcd"] ∧
      traceBefore.freeSpace.start = 12 ∧
      Push traceBefore (ascii "abcde") = .ok (traceAfter, none) ∧
      traceAfter.buffer[12]? = some 5 ∧ traceAfter.buffer[0]? = some 0 ∧
      leBytes 2 (ascii "abcde").length = [5, 0] ∧
      run traceAfter traceCallsAfter = .ok (traceEnd, traceResultsAfter) ∧
      traceResultsAfter.map Result.bytes =
        [[], ascii "1234", ascii "abcde", [], ascii "0123456789A"] := by
  refine ⟨by decide, by decide, by decide, by decide, by decide, by decide,
    by decide, by decide, by decide, by decide⟩

/-- C15: on a queue whose header has `H` bytes, `1 <= H` and `H <= 8` as for
every 64-bit size limit, `putMsgLength(length)` into the header buffer followed
by `getMsgLength` returns `length`, for every `length < 256^H` and so for every
`length <= maxMessageSize` when `H` is the width `New` computes. -/
theorem header_round_trip (f : FastFifo) (size : Nat)
    (h1 : 1 ≤ f.headerBuffer.length) (h8 : f.headerBuffer.length ≤ 8)
    (hs : size < 256 ^ f.headerBuffer.length ∨
      ((size : Int) ≤ f.maxMessageSize ∧
        (f.headerBuffer.length : Int) = calcMsgHeaderSize f.maxMessageSize)) :
    ∃ hb, putMsgLength f size f.headerBuffer = .ok hb ∧
      hb.length = f.headerBuffer.length ∧
      getMsgLength { f with headerBuffer := hb } = .ok size := by
  have hlt : size < 256 ^ f.headerBuffer.length := by
    rcases hs with hs | ⟨hle, hH⟩
    · exact hs
    · have hm : 0 < f.maxMessageSize := by
        by_contra hcon
        rw [calcMsgHeaderSize_nonpos _ (by omega)] at hH
        omega
      obtain ⟨H, hHe, _, hHlt, _, _⟩ := headerWidth_facts f.maxMessageSize hm
      have e : f.headerBuffer.length = H := by
        rw [hHe] at hH
        exact_mod_cast hH
      rw [e]
      have : (size : Int) < 256 ^ H := by omega
      exact_mod_cast this
  have hput := putMsgLength_spec f size f.headerBuffer h1 (Nat.le_refl _)
  rw [List.drop_length, List.append_nil] at hput
  exact ⟨_, hput, leBytes_length _ _,
    getMsgLength_spec _ f.headerBuffer.length size rfl h1 h8 hlt⟩

theorem header_round_trip_witness :
    ∃ hb, putMsgLength traceNew 300 traceNew.headerBuffer = .ok hb ∧
      hb.length = traceNew.headerBuffer.length ∧
      getMsgLength { traceNew with headerBuffer := hb } = .ok 300 :=
  header_round_trip traceNew 300 (by decide) (by decide) (Or.inl (by decide))

/-- C16: on a queue whose header has `H >= 1` bytes, `putMsgLength(length)`
into a destination of at least `H` bytes writes the low `H` bytes of `length`,
all of it when `length < 256^H`, in little-endian order: afterwards `dst[i] == (length / 256^i) mod
256` for every `i < H`, the bytes at index `H` and above are unchanged and
the destination keeps its length; for `H = 2` and `H = 4` the bytes written
are `byte(v), byte(v>>8)` and `byte(v), byte(v>>8), byte(v>>16), byte(v>>24)`,
the little-endian encodings of `uint16` and `uint32`. -/
theorem putMsgLength_little_endian (f : FastFifo) (size : Nat) (dst : List Byte)
    (h1 : 1 ≤ f.headerBuffer.length) (hd : f.headerBuffer.length ≤ dst.length) :
    ∃ d, putMsgLength f size dst = .ok d ∧ d.length = dst.length ∧
      (∀ i, i < f.headerBuffer.length →
        (d[i]?).map Fin.val = some (size / 256 ^ i % 256)) ∧
      (∀ i, f.headerBuffer.length ≤ i → d[i]? = dst[i]?) ∧
      (f.headerBuffer.length = 2 → d.take 2 = [toByte size, toByte (size >>> 8)]) ∧
      (f.headerBuffer.length = 4 →
        d.take 4 = [toByte size, toByte (size >>> 8), toByte (size >>> 16),
          toByte (size >>> 24)]) := by
  have hLB := leBytes_length f.headerBuffer.length size
  have htake : (leBytes f.headerBuffer.length size ++ dst.drop f.headerBuffer.length).take
      f.headerBuffer.length = leBytes f.headerBuffer.length size := List.take_left' hLB
  refine ⟨_, putMsgLength_spec f size dst h1 hd, ?_, ?_, ?_, ?_, ?_⟩
  · rw [List.length_append, hLB, List.length_drop]
    omega
  · intro i hi
    rw [List.getElem?_append_left (by omega)]
    unfold leBytes
    rw [List.getElem?_map, List.getElem?_range hi]
    simp only [Option.map_some']
    rw [toByte_shift_val]
  · intro i hi
    rw [List.getElem?_append_right (by omega), hLB, List.getElem?_drop]
    congr 1
    omega
  · intro h2
    rw [h2] at htake ⊢
    rw [htake]
    rfl
  · intro h4
    rw [h4] at htake ⊢
    rw [htake]
    rfl

theorem putMsgLength_little_endian_witness :
    ∃ d, putMsgLength traceNew 300 [9, 9, 9] = .ok d ∧ d.length = ([9, 9, 9] : List Byte).length ∧
      (∀ i, i < traceNew.headerBuffer.length →
        (d[i]?).map Fin.val = some (300 / 256 ^ i % 256)) ∧
      (∀ i, traceNew.headerBuffer.length ≤ i → d[i]? = ([9, 9, 9] : List Byte)[i]?) ∧
      (traceNew.headerBuffer.length = 2 → d.take 2 = [toByte 300, toByte (300 >>> 8)]) ∧
      (traceNew.headerBuffer.length = 4 →
        d.take 4 = [toByte 300, toByte (300 >>> 8), toByte (300 >>> 16),
          toByte (300 >>> 24)]) :=
  putMsgLength_little_endian traceNew 300 [9, 9, 9] (by decide) (by decide)

/-- C17: for a ring `dst` of `C > 0` bytes, an offset `dstSince >= 0`, also
one at or beyond `C`, and a `src` with `len(src) <= C`,
`writeCrossBoundary(src, dst, dstSince)` returns `len(src)` and leaves
`dst[(dstSince + i) mod C] == src[i]` for every `i < len(src)`, every other
byte of `dst` unchanged and the length of `dst` as it was. -/
theorem writeCrossBoundary_cyclic (src dst : List Byte) (dstSince : Int)
    (h0 : 0 ≤ dstSince) (hC : 0 < dst.length) (hsrc : src.length ≤ dst.length) :
    ∃ w, writeCrossBoundary src dst dstSince = .ok (w, (src.length : Int)) ∧
      w.length = dst.length ∧
      (∀ i, i < src.length → w[(dstSince.toNat + i) % dst.length]? = src[i]?) ∧
      (∀ j, (∀ i, i < src.length → (dstSince.toNat + i) % dst.length ≠ j) →
        w[j]? = dst[j]?) := by
  obtain ⟨s, rfl⟩ : ∃ s : Nat, dstSince = (s : Int) := ⟨dstSince.toNat, by omega⟩
  obtain ⟨w, hw, hcw⟩ := writeCrossBoundary_spec src dst s hC hsrc
  have e := cyclicWrite_eq_put dst src w s hcw
  rw [Int.toNat_natCast]
  refine ⟨w, hw, hcw.1, ?_, ?_⟩
  · intro i hi
    rw [e]
    exact cyclicPut_written dst src s i hi hsrc
  · intro j hj
    rw [e]
    exact cyclicPut_other dst src s j hj

theorem writeCrossBoundary_cyclic_witness :
    ∃ w, writeCrossBoundary (ascii "123456") (ascii "------") 7 =
        .ok (w, ((ascii "123456").length : Int)) ∧
      w.length = (ascii "------").length ∧
      (∀ i, i < (ascii "123456").length →
        w[((7 : Int).toNat + i) % (ascii "------").length]? = (ascii "123456")[i]?) ∧
      (∀ j, (∀ i, i < (ascii "123456").length →
          ((7 : Int).toNat + i) % (ascii "------").length ≠ j) →
        w[j]? = (ascii "------")[j]?) :=
  writeCrossBoundary_cyclic (ascii "123456") (ascii "------") 7 (by decide) (by decide)
    (by decide)

/-- C18: for a ring `src` of `C > 0` bytes, an offset `since >= 0`, also `C`
itself or more, a `length` from 0 to `C` and a `dst` with
`len(dst) >= length`, `readCrossBoundary(src, since, length, dst)` returns
`length` and leaves `dst[i] == src[(since + i) mod C]` for every
`i < length`, with the bytes of `dst` at index `length` and above, and its
length, unchanged; the ring is only read. -/
theorem readCrossBoundary_cyclic (src dst : List Byte) (since length : Int)
    (h0 : 0 ≤ since) (hl0 : 0 ≤ length) (hC : 0 < src.length)
    (hlen : length ≤ (src.length : Int)) (hd : length ≤ (dst.length : Int)) :
    ∃ d, readCrossBoundary src since length dst = .ok (d, length) ∧
      d.length = dst.length ∧
      (∀ i, i < length.toNat → d[i]? = src[(since.toNat + i) % src.length]?) ∧
      (∀ i, length.toNat ≤ i → d[i]? = dst[i]?) := by
  obtain ⟨s, rfl⟩ : ∃ s : Nat, since = (s : Int) := ⟨since.toNat, by omega⟩
  obtain ⟨n, rfl⟩ : ∃ n : Nat, length = (n : Int) := ⟨length.toNat, by omega⟩
  have hn : n ≤ src.length := by exact_mod_cast hlen
  have hnd : n ≤ dst.length := by exact_mod_cast hd
  have hR : (src.rotate s).length = src.length := List.length_rotate _ _
  have hT : ((src.rotate s).take n).length = n := by
    rw [List.length_take, hR]
    omega
  rw [Int.toNat_natCast, Int.toNat_natCast]
  refine ⟨_, readCrossBoundary_spec src dst s n hC hn hnd, ?_, ?_, ?_⟩
  · rw [List.length_append, hT, List.length_drop]
    omega
  · intro i hi
    rw [List.getElem?_append_left (by omega), List.getElem?_take_of_lt hi,
      List.getElem?_rotate (by omega), Nat.add_comm]
  · intro i hi
    rw [List.getElem?_append_right (by omega), hT, List.getElem?_drop]
    congr 1
    omega

theorem readCrossBoundary_cyclic_witness :
    ∃ d, readCrossBoundary (ascii "123456") 7 4 (ascii "------") = .ok (d, 4) ∧
      d.length = (ascii "------").length ∧
      (∀ i, i < (4 : Int).toNat →
        d[i]? = (ascii "123456")[((7 : Int).toNat + i) % (ascii "123456").length]?) ∧
      (∀ i, (4 : Int).toNat ≤ i → d[i]? = (ascii "------")[i]?) :=
  readCrossBoundary_cyclic (ascii "123456") (ascii "------") 7 4 (by decide) (by decide)
    (by decide) (by decide) (by decide)

/-- C12: in a reachable state with `freeSpace.length >= H`, `Push` of the
empty payload succeeds, wherever the free range starts, and moves exactly `H`
bytes from `freeSpace.length` to `data.length`; when the oldest pending
payload is empty, `Pop` returns `(0, nil)` and leaves the destination as it
was, for every destination, the nil slice included; and with
`freeSpace.length < H` every `Push` of a payload of length at most
`maxMessageSize` fails with `ErrNoSpaceLeft`. -/
theorem zero_length_payloads (mms cap : Int) (f : FastFifo) (q : List (List Byte))
    (hr : Reach mms cap f q) :
    ((f.headerBuffer.length : Int) ≤ f.freeSpace.length →
        ∃ f', Push f [] = .ok (f', none) ∧
          f'.data.length = f.data.length + (f.headerBuffer.length : Int) ∧
          f'.freeSpace.length = f.freeSpace.length - (f.headerBuffer.length : Int)) ∧
      (∀ q', q = [] :: q' → ∀ dst : Slice, ∃ f', Pop f dst = .ok (f', dst, 0, none)) ∧
      (f.freeSpace.length < (f.headerBuffer.length : Int) →
        ∀ m : List Byte, (m.length : Int) ≤ mms →
          Push f m = .ok (f, some .ErrNoSpaceLeft)) := by
  obtain ⟨hinv, hm, hI, hc⟩ := Reach_inv mms cap f q hr
  obtain ⟨h1, h2⟩ := Inv_encode_length mms cap.toNat f q hinv
  have hnn : 0 ≤ f.freeSpace.length := by
    obtain ⟨_, _, _, _, ds, dl, _, hdl, _, hfr, _⟩ := hinv
    rw [hfr]
    simp only []
    omega
  refine ⟨?_, ?_, ?_⟩
  · intro hroom
    obtain ⟨f', hP, hinv', _⟩ := Push_inv mms cap.toNat f q [] hm (by omega) hinv
    have hspec : specPush mms f.headerBuffer.length cap.toNat q [] = (q ++ [[]], none) := by
      unfold specPush
      rw [if_neg (by simp only [List.length_nil]; omega),
        if_neg (by simp only [List.length_nil]; omega)]
    rw [hspec] at hP hinv'
    obtain ⟨h1', h2'⟩ := Inv_encode_length mms cap.toNat f' _ hinv'
    have hH' : f'.headerBuffer.length = f.headerBuffer.length := by
      rw [Inv_headerWidth mms _ f' _ hinv', Inv_headerWidth mms _ f _ hinv]
    rw [hH', encodeQ_append, List.length_append, List.length_append, leBytes_length] at h1'
    simp only [List.length_nil] at h1'
    push_cast at h1'
    exact ⟨f', hP, by omega, by omega⟩
  · intro q' hq dst
    subst hq
    obtain ⟨f', hP, _, _⟩ := Pop_inv_roomy mms cap.toNat f ([] :: q') dst hm hI (by omega) hinv
      (by
        intro m hmq
        injection hmq with hmq
        subst hmq
        unfold Slice.len
        simp only [List.length_nil]
        omega)
    simp only [specPop, List.length_nil, List.drop_zero, List.nil_append] at hP
    exact ⟨f', hP⟩
  · intro hfull m hlen
    obtain ⟨f', hP, _, hsame⟩ := Push_inv mms cap.toNat f q m hm (by omega) hinv
    have hspec : specPush mms f.headerBuffer.length cap.toNat q m =
        (q, some .ErrNoSpaceLeft) := by
      unfold specPush
      rw [if_neg (by omega), if_pos (by omega)]
    rw [hspec] at hP hsame
    rw [hsame (by simp)] at hP
    exact hP

theorem zero_length_payloads_witness :
    (((sampleBlank.headerBuffer.length : Int) ≤ sampleBlank.freeSpace.length →
        ∃ f', Push sampleBlank [] = .ok (f', none) ∧
          f'.data.length = sampleBlank.data.length + (sampleBlank.headerBuffer.length : Int) ∧
          f'.freeSpace.length =
            sampleBlank.freeSpace.length - (sampleBlank.headerBuffer.length : Int)) ∧
      (∀ q', [([] : List Byte)] = [] :: q' → ∀ dst : Slice,
        ∃ f', Pop sampleBlank dst = .ok (f', dst, 0, none)) ∧
      (sampleBlank.freeSpace.length < (sampleBlank.headerBuffer.length : Int) →
        ∀ m : List Byte, (m.length : Int) ≤ 255 →
          Push sampleBlank m = .ok (sampleBlank, some .ErrNoSpaceLeft))) ∧
    ((traceBefore.headerBuffer.length : Int) ≤ traceBefore.freeSpace.length →
        ∃ f', Push traceBefore [] = .ok (f', none) ∧
          f'.data.length = traceBefore.data.length + (traceBefore.headerBuffer.length : Int) ∧
          f'.freeSpace.length =
            traceBefore.freeSpace.length - (traceBefore.headerBuffer.length : Int)) ∧
      (∀ q', [ascii "1234"] = [] :: q' → ∀ dst : Slice,
        ∃ f', Pop traceBefore dst = .ok (f', dst, 0, none)) ∧
      (traceBefore.freeSpace.length < (traceBefore.headerBuffer.length : Int) →
        ∀ m : List Byte, (m.length : Int) ≤ 260 →
          Push traceBefore m = .ok (traceBefore, some .ErrNoSpaceLeft)) :=
  ⟨zero_length_payloads 255 8 sampleBlank [[]] sampleBlank_reach,
    zero_length_payloads 260 13 traceBefore [ascii "1234"] traceBefore_reach⟩

/-- C14: in a reachable state, whenever `Push` succeeds, whichever of its
three paths ran, the new state is the one the generic procedure of the
specification gives: the buffer is the old one with the `H`-byte
little-endian header written cyclically at `freeSpace.start` and then the
payload written cyclically at `(freeSpace.start + H) mod C`, every byte
outside those `total = H + len(payload)` offsets unchanged;
`freeSpace.start` becomes `(freeSpace.start + total) mod C`,
`freeSpace.length` decreases by `total`, `data.length` increases by `total`
and `data.start` stays. -/
theorem push_matches_generic_write (mms cap : Int) (f f' : FastFifo) (q : List (List Byte))
    (m : List Byte) (hr : Reach mms cap f q) (hP : Push f m = .ok (f', none)) :
    f'.buffer =
        cyclicPut (cyclicPut f.buffer f.freeSpace.start.toNat
            (leBytes f.headerBuffer.length m.length))
          ((f.freeSpace.start.toNat + f.headerBuffer.length) % f.buffer.length) m ∧
      (∀ j, (∀ k, k < f.headerBuffer.length + m.length →
          (f.freeSpace.start.toNat + k) % f.buffer.length ≠ j) →
        f'.buffer[j]? = f.buffer[j]?) ∧
      f'.freeSpace.start =
        (((f.freeSpace.start.toNat + (f.headerBuffer.length + m.length)) % f.buffer.length
          : Nat) : Int) ∧
      f'.freeSpace.length =
        f.freeSpace.length - ((f.headerBuffer.length : Int) + (m.length : Int)) ∧
      f'.data.length = f.data.length + ((f.headerBuffer.length : Int) + (m.length : Int)) ∧
      f'.data.start = f.data.start := by
  obtain ⟨hinv, hm, hI, hc⟩ := Reach_inv mms cap f q hr
  obtain ⟨h1, h2⟩ := Inv_encode_length mms cap.toNat f q hinv
  obtain ⟨H, hHe, hH1, _, _, _⟩ := headerWidth_facts mms hm
  obtain ⟨hB, hH, hM, hq, ds, dl, hds, hdl, hdata, hfree, henc⟩ := hinv
  have hHl : f.headerBuffer.length = H := by
    rw [hHe] at hH
    exact_mod_cast hH
  have hC : 0 < cap.toNat := by omega
  have hfit : ¬ (m.length : Int) > f.maxMessageSize := by
    intro hcon
    unfold Push at hP
    rw [if_pos hcon] at hP
    injection hP with hP
    injection hP with _ hP
    cases hP
  have hroom : ¬ (f.headerBuffer.length : Int) + (m.length : Int) > f.freeSpace.length := by
    intro hcon
    unfold Push at hP
    rw [if_neg hfit] at hP
    simp only [] at hP
    rw [if_pos hcon] at hP
    injection hP with hP
    injection hP with _ hP
    cases hP
  have hfs : f.freeSpace.start = (((ds + dl) % cap.toNat : Nat) : Int) := by rw [hfree]
  have hfsN : f.freeSpace.start.toNat = (ds + dl) % cap.toNat := by
    rw [hfs, Int.toNat_natCast]
  have hfl : f.freeSpace.length = (cap.toNat : Int) - (dl : Int) := by rw [hfree]
  have hlt : (ds + dl) % cap.toNat < cap.toNat := Nat.mod_lt _ hC
  have htot : f.headerBuffer.length + m.length ≤ f.buffer.length := by omega
  obtain ⟨B', hb', hP', _, hcw⟩ := Push_ok f m ((ds + dl) % cap.toNat) hfs
    (by rw [hB]; exact hlt) (by omega) hfit hroom htot
  rw [hP'] at hP
  injection hP with hP
  injection hP with hP _
  subst hP
  have hrec : (leBytes f.headerBuffer.length m.length ++ m).length =
      f.headerBuffer.length + m.length := by
    rw [List.length_append, leBytes_length]
  have hB' := cyclicWrite_eq_put _ _ _ _ hcw
  rw [hfsN]
  refine ⟨?_, ?_, ?_, ?_, ?_, ?_⟩
  · have c1 := cyclicWrite_put f.buffer (leBytes f.headerBuffer.length m.length)
      ((ds + dl) % cap.toNat) (by omega) (by rw [leBytes_length]; omega)
    have hl1 := c1.1
    have c2 := cyclicWrite_put
      (cyclicPut f.buffer ((ds + dl) % cap.toNat) (leBytes f.headerBuffer.length m.length))
      m ((ds + dl) % cap.toNat + f.headerBuffer.length) (by omega) (by omega)
    have c3 := cyclicWrite_comp _ _ _ _ _ _ c1
      (by rw [leBytes_length]; exact c2) (by rw [leBytes_length]; exact htot)
    have e3 := cyclicWrite_eq_put _ _ _ _ c3
    have e4 : cyclicPut
        (cyclicPut f.buffer ((ds + dl) % cap.toNat) (leBytes f.headerBuffer.length m.length))
        (((ds + dl) % cap.toNat + f.headerBuffer.length) % f.buffer.length) m =
        cyclicPut
        (cyclicPut f.buffer ((ds + dl) % cap.toNat) (leBytes f.headerBuffer.length m.length))
        ((ds + dl) % cap.toNat + f.headerBuffer.length) m := by
      rw [← hl1]
      exact cyclicPut_mod _ _ _
    simp only [pushAdvance]
    rw [e4, hB', e3]
  · intro j hj
    simp only [pushAdvance]
    rw [hB']
    exact cyclicPut_other _ _ _ j (by rw [hrec]; exact hj)
  · simp only [pushAdvance]
    have hw := wrap_once ((ds + dl) % cap.toNat) (f.headerBuffer.length + m.length)
      cap.toNat hC (by omega)
    rw [Nat.mod_mod] at hw
    have hc2 : ((f.headerBuffer.length + m.length : Nat) : Int) =
        (f.headerBuffer.length : Int) + (m.length : Int) := by push_cast; rfl
    rw [hc2] at hw
    rw [hfs, hcw.1, hB, hw]
  · simp only [pushAdvance]
  · simp only [pushAdvance]
  · simp only [pushAdvance]

theorem push_matches_generic_write_witness :
    traceAfter.buffer =
        cyclicPut (cyclicPut traceBefore.buffer traceBefore.freeSpace.start.toNat
            (leBytes traceBefore.headerBuffer.length (ascii "abcde").length))
          ((traceBefore.freeSpace.start.toNat + traceBefore.headerBuffer.length) %
            traceBefore.buffer.length) (ascii "abcde") ∧
      (∀ j, (∀ k, k < traceBefore.headerBuffer.length + (ascii "abcde").length →
          (traceBefore.freeSpace.start.toNat + k) % traceBefore.buffer.length ≠ j) →
        traceAfter.buffer[j]? = traceBefore.buffer[j]?) ∧
      traceAfter.freeSpace.start =
        (((traceBefore.freeSpace.start.toNat +
            (traceBefore.headerBuffer.length + (ascii "abcde").length)) %
          traceBefore.buffer.length : Nat) : Int) ∧
      traceAfter.freeSpace.length =
        traceBefore.freeSpace.length -
          ((traceBefore.headerBuffer.length : Int) + ((ascii "abcde").length : Int)) ∧
      traceAfter.data.length =
        traceBefore.data.length +
          ((traceBefore.headerBuffer.length : Int) + ((ascii "abcde").length : Int)) ∧
      traceAfter.data.start = traceBefore.data.start :=
  push_matches_generic_write 260 13 traceBefore traceAfter [ascii "1234"] (ascii "abcde")
    traceBefore_reach (by decide)

/-- C19: in every reachable state, with `C = len(buffer) = capacity`, both
ranges are well formed and adjacent: `0 <= data.start < C`,
`0 <= freeSpace.start < C`, `0 <= data.length <= C`,
`0 <= freeSpace.length <= C` and
`freeSpace.start == (data.start + data.length) mod C`. -/
theorem ranges_well_formed (mms cap : Int) (f : FastFifo) (q : List (List Byte))
    (hr : Reach mms cap f q) :
    (f.buffer.length : Int) = cap ∧
      0 ≤ f.data.start ∧ f.data.start < cap ∧
      0 ≤ f.freeSpace.start ∧ f.freeSpace.start < cap ∧
      0 ≤ f.data.length ∧ f.data.length ≤ cap ∧
      0 ≤ f.freeSpace.length ∧ f.freeSpace.length ≤ cap ∧
      f.freeSpace.start = (f.data.start + f.data.length) % cap := by
  obtain ⟨hinv, hm, hI, hc⟩ := Reach_inv mms cap f q hr
  obtain ⟨hB, _, _, _, ds, dl, hds, hdl, hdata, hfree, _⟩ := hinv
  have hlt : (ds + dl) % cap.toNat < cap.toNat := Nat.mod_lt _ (by omega)
  have hcap : ((cap.toNat : Nat) : Int) = cap := by omega
  have hmod : (((ds + dl) % cap.toNat : Nat) : Int) = ((ds : Int) + (dl : Int)) % cap := by
    push_cast
    rw [hcap]
  rw [hdata, hfree]
  simp only []
  refine ⟨by omega, by omega, by omega, by omega, by omega, by omega, by omega, by omega,
    by omega, hmod⟩

theorem ranges_well_formed_witness :
    (traceAfter.buffer.length : Int) = 13 ∧
      0 ≤ traceAfter.data.start ∧ traceAfter.data.start < 13 ∧
      0 ≤ traceAfter.freeSpace.start ∧ traceAfter.freeSpace.start < 13 ∧
      0 ≤ traceAfter.data.length ∧ traceAfter.data.length ≤ 13 ∧
      0 ≤ traceAfter.freeSpace.length ∧ traceAfter.freeSpace.length ≤ 13 ∧
      traceAfter.freeSpace.start = (traceAfter.data.start + traceAfter.data.length) % 13 :=
  ranges_well_formed 260 13 traceAfter [ascii "1234", ascii "abcde"]
    (Reach.push traceBefore traceAfter [ascii "1234"] (ascii "abcde") none traceBefore_reach
      (by decide))

/-- C20: in every reachable state the `data.length` bytes read cyclically from
`data.start` are the records of the pending payloads in order: read as
successive records, an `H`-byte little-endian length and then that many
payload bytes, they give exactly the pending payloads and end with the last
record; the sum of `H + len(payload)` over the pending payloads is
`data.length`, and every payload length is at most `maxMessageSize`. -/
theorem occupied_bytes_are_records (mms cap : Int) (f : FastFifo) (q : List (List Byte))
    (hr : Reach mms cap f q) :
    ((f.buffer.rotate f.data.start.toNat).take f.data.length.toNat).length =
        f.data.length.toNat ∧
      0 ≤ f.data.length ∧
      (f.buffer.rotate f.data.start.toNat).take f.data.length.toNat =
        encodeQ f.headerBuffer.length q ∧
      parseRecords f.headerBuffer.length f.data.length.toNat
        ((f.buffer.rotate f.data.start.toNat).take f.data.length.toNat) = some q ∧
      (((q.map (fun m => f.headerBuffer.length + m.length)).sum : Nat) : Int) =
        f.data.length ∧
      ∀ m ∈ q, (m.length : Int) ≤ f.maxMessageSize := by
  obtain ⟨hinv, hm, hI, hc⟩ := Reach_inv mms cap f q hr
  obtain ⟨h1, _⟩ := Inv_encode_length mms cap.toNat f q hinv
  obtain ⟨H, hHe, hH1, hHlt, _, _⟩ := headerWidth_facts mms hm
  obtain ⟨hB, hH, hM, hq, ds, dl, hds, hdl, hdata, hfree, henc⟩ := hinv
  have hHl : f.headerBuffer.length = H := by
    rw [hHe] at hH
    exact_mod_cast hH
  rw [hdata] at h1 ⊢
  simp only [Int.toNat_natCast] at h1 ⊢
  have hlen : (encodeQ f.headerBuffer.length q).length = dl := by exact_mod_cast h1
  rw [henc]
  refine ⟨hlen, by omega, rfl, ?_, ?_, ?_⟩
  · apply parseRecords_encodeQ _ (by omega)
    · have := encodeQ_length_ge f.headerBuffer.length (by omega) q
      omega
    · intro m' hm'
      have h3 := hq m' hm'
      have : (m'.length : Int) < 256 ^ H := by omega
      rw [hHl]
      exact_mod_cast this
  · rw [← encodeQ_length_sum, hlen]
  · intro m' hm'
    rw [hM]
    exact hq m' hm'

theorem occupied_bytes_are_records_witness :
    ((sampleWrapped.buffer.rotate sampleWrapped.data.start.toNat).take
          sampleWrapped.data.length.toNat).length = sampleWrapped.data.length.toNat ∧
      0 ≤ sampleWrapped.data.length ∧
      (sampleWrapped.buffer.rotate sampleWrapped.data.start.toNat).take
          sampleWrapped.data.length.toNat =
        encodeQ sampleWrapped.headerBuffer.length [[118, 119, 120, 121, 122]] ∧
      parseRecords sampleWrapped.headerBuffer.length sampleWrapped.data.length.toNat
        ((sampleWrapped.buffer.rotate sampleWrapped.data.start.toNat).take
          sampleWrapped.data.length.toNat) = some [[118, 119, 120, 121, 122]] ∧
      (((([[118, 119, 120, 121, 122]] : List (List Byte)).map
          (fun m => sampleWrapped.headerBuffer.length + m.length)).sum : Nat) : Int) =
        sampleWrapped.data.length ∧
      ∀ m ∈ ([[118, 119, 120, 121, 122]] : List (List Byte)),
        (m.length : Int) ≤ sampleWrapped.maxMessageSize :=
  occupied_bytes_are_records 255 8 sampleWrapped [[118, 119, 120, 121, 122]]
    sampleWrapped_reach

end fastfifo
